import Mathlib

/-!
Shallow embedding of the `bayes-net` repository (files `src/BN.py`,
`src/dsep.py`, `src/iequiv.py`).

Python dictionaries keyed by node name are modelled as association lists in
insertion order (`List (String × Node)` for the graph, `List String` for the
key sets of the `parents` / `children` dictionaries; the dictionary values are
only ever used through their keys).  Python sets that are only queried for
membership (`observed`, `obs_anc`, `visited`, `skeleton`, `immoral`) are
modelled as lists, with the same membership tests the source performs.
A `KeyError` raised by `self.nodes[name]` is modelled by `Option`: `none`
is the error outcome.  The `while` loop of `is_dsep` is run on explicit
fuel; `BN.dsepFuel` is proved large enough for the loop to finish.
-/

/-- Direction tag of the d-separation traversal: the Python strings
`"up"` / `"down"`. -/
inductive Dir : Type
  | up : Dir
  | down : Dir
deriving DecidableEq

/-- `Node` of `BN.py`: a name plus the key lists of the `parents` and
`children` dictionaries (in insertion order). -/
structure Node : Type where
  name : String
  parents : List String
  children : List String
deriving DecidableEq

/-- `BN` of `BN.py`: the `nodes` dictionary as an association list in
insertion order. -/
structure BN : Type where
  nodes : List (String × Node)
deriving DecidableEq

/-- The empty network (`BN.__init__`). -/
def BN.empty : BN := ⟨[]⟩

/-- Dictionary lookup `self.nodes[name]` / `self.nodes.get(name)`:
first entry with the given key. -/
def lookupNode : List (String × Node) → String → Option Node
  | [], _ => none
  | p :: ps, k => if p.1 = k then some p.2 else lookupNode ps k

/-- `bn.nodes[name]`, `none` models a Python `KeyError`. -/
def BN.getNode (bn : BN) (k : String) : Option Node :=
  lookupNode bn.nodes k

/-- Insertion of a key into a dictionary key list:
`d[k] = v` leaves the key list unchanged when `k` is present and appends
it otherwise. -/
def dictInsert (ks : List String) (k : String) : List String :=
  if k ∈ ks then ks else ks ++ [k]

/-- `if name not in self.nodes: self.nodes[name] = Node(name=name)`. -/
def BN.ensureNode (bn : BN) (k : String) : BN :=
  if (bn.getNode k).isSome then bn else ⟨bn.nodes ++ [(k, ⟨k, [], []⟩)]⟩

/-- In-place mutation of the node stored under key `k`. -/
def BN.updateNode (bn : BN) (k : String) (f : Node → Node) : BN :=
  ⟨bn.nodes.map fun p => if p.1 = k then (p.1, f p.2) else p⟩

/-- `BN.add_edge(edge)`: create missing endpoints, then
`parent.add_child(child)` and `child.add_parent(parent)` (dictionary
writes keyed by name). -/
def BN.add_edge (bn : BN) (edge : String × String) : BN :=
  let bn1 := (bn.ensureNode edge.1).ensureNode edge.2
  let bn2 := bn1.updateNode edge.1
    fun nd => { nd with children := dictInsert nd.children edge.2 }
  bn2.updateNode edge.2
    fun nd => { nd with parents := dictInsert nd.parents edge.1 }

/-- A graph built from an edge list, as both CLI drivers do. -/
def buildBN (edges : List (String × String)) : BN :=
  edges.foldl BN.add_edge BN.empty

/-- `set.add` on a set modelled as a duplicate-free list. -/
def setAdd (acc : List String) (x : String) : List String :=
  if x ∈ acc then acc else acc ++ [x]

/-- `find_obs_anc`'s `while` loop.  The Python loop pops from the end of
`visit_nodes` and never pushes, so it processes the observed list back to
front; the caller passes the reversed list and this helper processes it
head first. -/
def obsAncLoop (bn : BN) : List String → List String → Option (List String)
  | [], acc => some acc
  | v :: vs, acc =>
    match bn.getNode v with
    | none => none
    | some nd => obsAncLoop bn vs (nd.parents.foldl setAdd acc)

/-- `BN.find_obs_anc(observed)`: one parent-hop from every observed node
(`none` models the `KeyError` on an unknown observed name). -/
def BN.find_obs_anc (bn : BN) (observed : List String) : Option (List String) :=
  obsAncLoop bn observed.reverse []

/-- The states the body of `is_dsep`'s loop appends to `via_nodes` when it
expands node `nname` (looked up as `nd`) entered with direction `dir`,
in Python append order. -/
def pushStates (nd : Node) : Dir → String → List String → List String →
    List (String × Dir)
  | Dir.up, nname, observed, _ =>
    if nname ∉ observed then
      nd.parents.map (fun p => (p, Dir.up)) ++
        nd.children.map (fun c => (c, Dir.down))
    else []
  | Dir.down, nname, observed, obs_anc =>
    (if nname ∉ observed then nd.children.map (fun c => (c, Dir.down)) else []) ++
      (if nname ∈ observed ∨ nname ∈ obs_anc then
        nd.parents.map (fun p => (p, Dir.up)) else [])

/-- The `while via_nodes` loop of `is_dsep`.  The stack has its top at the
head (Python pops from the end, so a batch of appends is pushed reversed).
Returns the boolean of the source together with the final `visited` set;
`none` models either a `KeyError` or fuel exhaustion. -/
def dsepLoop (bn : BN) (qend : String) (observed obs_anc : List String) :
    Nat → List (String × Dir) → List (String × Dir) →
    Option (Bool × List (String × Dir))
  | 0, _, _ => none
  | _ + 1, [], visited => some (true, visited)
  | fuel + 1, s :: rest, visited =>
    match bn.getNode s.1 with
    | none => none
    | some nd =>
      if s ∈ visited then
        dsepLoop bn qend observed obs_anc fuel rest visited
      else
        if s.1 ∉ observed ∧ s.1 = qend then some (false, s :: visited)
        else
          dsepLoop bn qend observed obs_anc fuel
            ((pushStates nd s.2 s.1 observed obs_anc).reverse ++ rest)
            (s :: visited)

/-- Total length of all adjacency lists of the graph. -/
def BN.totalAdj (bn : BN) : Nat :=
  (bn.nodes.map fun p => p.2.parents.length + p.2.children.length).sum

/-- Fuel that provably outlasts the `is_dsep` loop. -/
def BN.dsepFuel (bn : BN) : Nat :=
  2 + 2 * bn.nodes.length * (1 + bn.totalAdj)

/-- `BN.is_dsep` instrumented with the final `visited` set. -/
def BN.is_dsep_run (bn : BN) (start qend : String) (observed : List String) :
    Option (Bool × List (String × Dir)) :=
  match bn.find_obs_anc observed with
  | none => none
  | some obs_anc =>
    dsepLoop bn qend observed obs_anc bn.dsepFuel [(start, Dir.up)] []

/-- `BN.is_dsep(start, end, observed)`; `none` models an uncaught
`KeyError`. -/
def BN.is_dsep (bn : BN) (start qend : String) (observed : List String) :
    Option Bool :=
  (bn.is_dsep_run start qend observed).map Prod.fst

/-- `skeleton.add((a, b))` guarded by the membership test on both
orderings. -/
def skelInsert (sk : List (String × String)) (a b : String) :
    List (String × String) :=
  if (a, b) ∈ sk ∨ (b, a) ∈ sk then sk else sk ++ [(a, b)]

/-- Contribution of one node to the skeleton.  Note that the source's
second loop (`for child in node.parents`) iterates `node.parents` again,
exactly as written in `BN.py`. -/
def skelAddNode (sk : List (String × String)) (nname : String) (nd : Node) :
    List (String × String) :=
  let sk1 := nd.parents.foldl (fun s parent => skelInsert s nname parent) sk
  nd.parents.foldl (fun s child => skelInsert s nname child) sk1

/-- `BN.get_skeleton()`. -/
def BN.get_skeleton (bn : BN) : List (String × String) :=
  bn.nodes.foldl (fun sk p => skelAddNode sk p.1 p.2) []

/-- All ordered parent pairs `(parents[i1], parents[i2])` with `i1 < i2`,
in the source's enumeration order. -/
def pairsAfter : List String → List (String × String)
  | [] => []
  | p :: ps => ps.map (fun q => (p, q)) ++ pairsAfter ps

/-- `immoral.add((p1, p2))` guarded by the four membership tests. -/
def immorInsert (sk im : List (String × String)) (q : String × String) :
    List (String × String) :=
  if (q.1, q.2) ∉ sk ∧ (q.2, q.1) ∉ sk ∧ (q.1, q.2) ∉ im ∧ (q.2, q.1) ∉ im then
    im ++ [(q.1, q.2)]
  else im

/-- `BN.get_skeleton_immor()`. -/
def BN.get_skeleton_immor (bn : BN) :
    List (String × String) × List (String × String) :=
  let skeleton := bn.get_skeleton
  let immoral := bn.nodes.foldl
    (fun im p =>
      if p.2.parents.length > 1 then
        (pairsAfter p.2.parents).foldl (fun im' q => immorInsert skeleton im' q) im
      else im)
    []
  (skeleton, immoral)

/-- `check_iequv(bn1, bn2)` of `iequiv.py`. -/
def check_iequv (bn1 bn2 : BN) : Bool :=
  let p1 := bn1.get_skeleton_immor
  let p2 := bn2.get_skeleton_immor
  if p1.1.length ≠ p2.1.length ∨ p1.2.length ≠ p2.2.length then false
  else
    (p1.2.all fun q => decide ((q.1, q.2) ∈ p2.2 ∨ (q.2, q.1) ∈ p2.2)) &&
      (p1.1.all fun q => decide ((q.1, q.2) ∈ p2.1 ∨ (q.2, q.1) ∈ p2.1))

/-! ### Unordered pairs of names -/

/-- The two orientations of an unordered pair. -/
def swapPair (p : String × String) : String × String := (p.2, p.1)

/-- Membership of an unordered pair in a list of oriented pairs:
the pair is present in some orientation. -/
def pairMem (p : String × String) (l : List (String × String)) : Prop :=
  (p.1, p.2) ∈ l ∨ (p.2, p.1) ∈ l

instance (p : String × String) (l : List (String × String)) :
    Decidable (pairMem p l) := by
  unfold pairMem; infer_instance

/-- Two oriented pairs denote the same unordered pair. -/
def pairEquiv (p q : String × String) : Prop := q = p ∨ q = swapPair p

/-- A list of oriented pairs with no unordered pair listed twice
(in any combination of orientations). -/
def upairNoDup (l : List (String × String)) : Prop :=
  l.Pairwise fun p q => ¬ pairEquiv p q

/-- Two lists of oriented pairs represent the same set of unordered
pairs. -/
def sameUPairs (l1 l2 : List (String × String)) : Prop :=
  ∀ p, pairMem p l1 ↔ pairMem p l2

/-- Canonical orientation of an unordered pair. -/
def canonPair (p : String × String) : String × String :=
  if p.1 ≤ p.2 then p else swapPair p

theorem swapPair_swapPair (p : String × String) : swapPair (swapPair p) = p := rfl

theorem pairEquiv_refl (p : String × String) : pairEquiv p p := Or.inl rfl

theorem pairEquiv_symm {p q : String × String} (h : pairEquiv p q) :
    pairEquiv q p := by
  rcases h with h | h
  · exact Or.inl h.symm
  · right; rw [h, swapPair_swapPair]

theorem pairMem_iff_exists {p : String × String} {l : List (String × String)} :
    pairMem p l ↔ ∃ q ∈ l, pairEquiv p q := by
  constructor
  · rintro (h | h)
    · exact ⟨(p.1, p.2), h, Or.inl rfl⟩
    · exact ⟨(p.2, p.1), h, Or.inr rfl⟩
  · rintro ⟨q, hq, h | h⟩
    · left; simpa [h] using hq
    · right; simpa [h, swapPair] using hq

theorem canonPair_eq_of_equiv {p q : String × String} (h : pairEquiv p q) :
    canonPair q = canonPair p := by
  obtain ⟨a, b⟩ := p
  rcases h with rfl | rfl
  · rfl
  · unfold canonPair swapPair
    rcases le_or_lt a b with h1 | h1
    · rcases le_or_lt b a with h2 | h2
      · have hab : a = b := le_antisymm h1 h2
        simp [hab]
      · simp [h1, not_le.mpr h2]
    · rcases le_or_lt b a with h2 | h2
      · simp [h2, not_le.mpr h1]
      · exact absurd h1.le (not_le.mpr h2)

theorem equiv_of_canonPair_eq {p q : String × String}
    (h : canonPair p = canonPair q) : pairEquiv p q := by
  obtain ⟨a, b⟩ := p
  obtain ⟨c, d⟩ := q
  unfold canonPair swapPair at h
  rcases le_or_lt a b with h1 | h1 <;> rcases le_or_lt c d with h2 | h2
  · simp only [if_pos h1, if_pos h2] at h
    exact Or.inl h.symm
  · simp only [if_pos h1, if_neg (not_le.mpr h2)] at h
    right
    simp only [swapPair]
    obtain ⟨rfl, rfl⟩ := Prod.mk.injEq .. ▸ Prod.mk.inj h
    rfl
  · simp only [if_neg (not_le.mpr h1), if_pos h2] at h
    right
    simp only [swapPair]
    obtain ⟨rfl, rfl⟩ := Prod.mk.injEq .. ▸ Prod.mk.inj h
    rfl
  · simp only [if_neg (not_le.mpr h1), if_neg (not_le.mpr h2)] at h
    left
    obtain ⟨rfl, rfl⟩ := Prod.mk.injEq .. ▸ Prod.mk.inj h
    rfl

theorem canonPair_mem_map {p : String × String} {l : List (String × String)} :
    canonPair p ∈ l.map canonPair ↔ pairMem p l := by
  rw [pairMem_iff_exists, List.mem_map]
  constructor
  · rintro ⟨q, hq, h⟩
    exact ⟨q, hq, equiv_of_canonPair_eq h.symm⟩
  · rintro ⟨q, hq, h⟩
    exact ⟨q, hq, (canonPair_eq_of_equiv h)⟩

theorem upairNoDup_map_canon {l : List (String × String)} (h : upairNoDup l) :
    (l.map canonPair).Nodup := by
  induction l with
  | nil => simp
  | cons p l ih =>
    rcases List.pairwise_cons.mp h with ⟨hp, ht⟩
    simp only [List.map_cons, List.nodup_cons]
    refine ⟨?_, ih ht⟩
    intro hmem
    rcases List.mem_map.mp hmem with ⟨q, hq, hcq⟩
    exact hp q hq (pairEquiv_symm (equiv_of_canonPair_eq hcq))

/-! ### Generic fold helpers -/

theorem foldl_rec {α β : Type} (P : α → Prop) (f : α → β → α) :
    ∀ (l : List β) (init : α), P init →
      (∀ a b, b ∈ l → P a → P (f a b)) → P (l.foldl f init)
  | [], init, h0, _ => h0
  | b :: l, init, h0, hstep => by
    simp only [List.foldl_cons]
    exact foldl_rec P f l (f init b) (hstep init b (List.mem_cons_self b l) h0)
      fun a c hc ha => hstep a c (List.mem_cons_of_mem b hc) ha

theorem foldl_subset {α β : Type} (f : List α → β → List α)
    (hf : ∀ a b, a ⊆ f a b) :
    ∀ (l : List β) (init : List α), init ⊆ l.foldl f init := by
  intro l init
  refine foldl_rec (fun a => init ⊆ a) f l init (fun x hx => hx) ?_
  intro a b _ ha
  exact ha.trans (hf a b)

/-! ### Association-list lookup lemmas -/

/-- Key list of the `nodes` dictionary. -/
def nodeKeys (l : List (String × Node)) : List String := l.map Prod.fst

theorem lookupNode_isSome_iff {l : List (String × Node)} {k : String} :
    (lookupNode l k).isSome ↔ k ∈ nodeKeys l := by
  induction l with
  | nil => simp [lookupNode, nodeKeys]
  | cons p ps ih =>
    by_cases h : p.1 = k
    · simp [lookupNode, nodeKeys, h]
    · simp [lookupNode, nodeKeys, h, ih]
      intro he
      exact absurd he.symm h

theorem lookupNode_eq_none_iff {l : List (String × Node)} {k : String} :
    lookupNode l k = none ↔ k ∉ nodeKeys l := by
  rw [← lookupNode_isSome_iff, Option.isSome_iff_exists]
  cases lookupNode l k <;> simp

theorem lookupNode_mem {l : List (String × Node)} {k : String} {nd : Node}
    (h : lookupNode l k = some nd) : (k, nd) ∈ l := by
  induction l with
  | nil => simp [lookupNode] at h
  | cons p ps ih =>
    obtain ⟨a, b⟩ := p
    by_cases hp : a = k
    · subst hp
      simp only [lookupNode, if_pos] at h
      rw [Option.some.injEq] at h
      subst h
      exact List.mem_cons_self _ _
    · simp only [lookupNode, if_neg hp] at h
      exact List.mem_cons_of_mem _ (ih h)

theorem mem_lookupNode {l : List (String × Node)} (hnd : (nodeKeys l).Nodup)
    {k : String} {nd : Node} (h : (k, nd) ∈ l) : lookupNode l k = some nd := by
  induction l with
  | nil => simp at h
  | cons p ps ih =>
    simp only [nodeKeys, List.map_cons, List.nodup_cons] at hnd
    rcases List.mem_cons.mp h with h | h
    · simp [lookupNode, ← h]
    · have hk : p.1 ≠ k := by
        intro hpk
        exact hnd.1 (hpk ▸ (List.mem_map_of_mem Prod.fst h))
      simp only [lookupNode, if_neg hk]
      exact ih hnd.2 h

theorem mem_iff_lookupNode {l : List (String × Node)} (hnd : (nodeKeys l).Nodup)
    {k : String} {nd : Node} : (k, nd) ∈ l ↔ lookupNode l k = some nd :=
  ⟨mem_lookupNode hnd, lookupNode_mem⟩

theorem lookupNode_append_of_some {l l' : List (String × Node)} {k : String}
    {nd : Node} (h : lookupNode l k = some nd) :
    lookupNode (l ++ l') k = some nd := by
  induction l with
  | nil => simp [lookupNode] at h
  | cons p ps ih =>
    by_cases hp : p.1 = k
    · simpa [lookupNode, hp] using h
    · simp only [lookupNode, if_neg hp] at h ⊢
      exact ih h

theorem lookupNode_append_of_none {l l' : List (String × Node)} {k : String}
    (h : lookupNode l k = none) :
    lookupNode (l ++ l') k = lookupNode l' k := by
  induction l with
  | nil => simp
  | cons p ps ih =>
    by_cases hp : p.1 = k
    · simp [lookupNode, hp] at h
    · simp only [lookupNode, if_neg hp] at h ⊢
      exact ih h

/-! ### Effect of the graph-store operations on lookups -/

theorem lookupNode_map_update (l : List (String × Node)) (k : String)
    (f : Node → Node) (k' : String) :
    lookupNode (l.map fun p => if p.1 = k then (p.1, f p.2) else p) k' =
      if k' = k then (lookupNode l k').map f else lookupNode l k' := by
  induction l with
  | nil => by_cases hk : k' = k <;> simp [lookupNode, hk]
  | cons p ps ih =>
    obtain ⟨a, nd⟩ := p
    by_cases hak : a = k
    · subst hak
      by_cases hak' : a = k'
      · subst hak'
        simp [lookupNode]
      · have h2 : ¬ k' = a := fun h => hak' h.symm
        simp [lookupNode, hak', h2, ih]
    · by_cases hak' : a = k'
      · subst hak'
        simp [lookupNode, hak]
      · simp [lookupNode, hak, hak', ih]

theorem getNode_update (bn : BN) (k : String) (f : Node → Node) (k' : String) :
    (bn.updateNode k f).getNode k' =
      if k' = k then (bn.getNode k').map f else bn.getNode k' :=
  lookupNode_map_update bn.nodes k f k'

theorem keys_update (bn : BN) (k : String) (f : Node → Node) :
    nodeKeys (bn.updateNode k f).nodes = nodeKeys bn.nodes := by
  show nodeKeys (bn.nodes.map _) = _
  unfold nodeKeys
  rw [List.map_map]
  congr 1
  funext p
  by_cases hp : p.1 = k <;> simp [hp]

theorem getNode_ensure_of_present (bn : BN) {k : String}
    (h : (bn.getNode k).isSome) : bn.ensureNode k = bn := by
  unfold BN.ensureNode
  rw [if_pos h]

theorem getNode_ensure_of_absent (bn : BN) {k : String}
    (h : bn.getNode k = none) (k' : String) :
    (bn.ensureNode k).getNode k' =
      if k' = k then some ⟨k, [], []⟩ else bn.getNode k' := by
  unfold BN.ensureNode
  rw [if_neg (by simp [h])]
  show lookupNode (bn.nodes ++ _) k' = _
  by_cases hk : k' = k
  · subst hk
    rw [lookupNode_append_of_none h, if_pos rfl]
    simp [lookupNode]
  · rw [if_neg hk]
    cases hl : bn.getNode k' with
    | some nd => exact lookupNode_append_of_some hl
    | none =>
      rw [lookupNode_append_of_none hl]
      have h2 : ¬ k = k' := fun h => hk h.symm
      simp [lookupNode, h2]

theorem keys_ensure (bn : BN) (k : String) (k' : String) :
    k' ∈ nodeKeys (bn.ensureNode k).nodes ↔
      k' ∈ nodeKeys bn.nodes ∨ k' = k := by
  unfold BN.ensureNode
  by_cases h : (bn.getNode k).isSome
  · rw [if_pos h]
    constructor
    · exact Or.inl
    · rintro (hm | rfl)
      · exact hm
      · exact lookupNode_isSome_iff.mp h
  · rw [if_neg h]
    simp [nodeKeys]

theorem dictInsert_mem {l : List String} {k x : String} :
    x ∈ dictInsert l k ↔ x ∈ l ∨ x = k := by
  unfold dictInsert
  by_cases h : k ∈ l
  · simp only [if_pos h]
    constructor
    · exact Or.inl
    · rintro (hm | rfl) <;> assumption
  · simp [if_neg h]

theorem dictInsert_nodup {l : List String} {k : String} (h : l.Nodup) :
    (dictInsert l k).Nodup := by
  unfold dictInsert
  by_cases hk : k ∈ l
  · simpa [hk]
  · simp only [if_neg hk]
    exact List.Nodup.append h (List.nodup_singleton k) (by simpa using hk)

/-! ### Well-formedness invariant of graphs built by `add_edge` -/

/-- Invariants maintained by `add_edge`: unique node keys, duplicate-free
adjacency key lists, and mutually consistent parent/child dictionaries
(every recorded edge is recorded on both endpoints). -/
structure WF (bn : BN) : Prop where
  keysNodup : (nodeKeys bn.nodes).Nodup
  parentsNodup : ∀ k nd, bn.getNode k = some nd → nd.parents.Nodup
  childrenNodup : ∀ k nd, bn.getNode k = some nd → nd.children.Nodup
  parentsClosed : ∀ k nd, bn.getNode k = some nd → ∀ x ∈ nd.parents,
      ∃ nd', bn.getNode x = some nd' ∧ k ∈ nd'.children
  childrenClosed : ∀ k nd, bn.getNode k = some nd → ∀ x ∈ nd.children,
      ∃ nd', bn.getNode x = some nd' ∧ k ∈ nd'.parents

theorem WF.empty : WF BN.empty := by
  constructor <;> first
    | exact List.nodup_nil
    | (intro k nd h; simp [BN.getNode, lookupNode, BN.empty] at h)

theorem keys_ensure_of_absent {bn : BN} {k : String} (h : bn.getNode k = none) :
    nodeKeys (bn.ensureNode k).nodes = nodeKeys bn.nodes ++ [k] := by
  unfold BN.ensureNode
  rw [if_neg (by simp [h])]
  simp [nodeKeys]

theorem WF.ensure {bn : BN} (h : WF bn) (k : String) : WF (bn.ensureNode k) := by
  by_cases hk : (bn.getNode k).isSome
  · rwa [getNode_ensure_of_present bn hk]
  · have hnone : bn.getNode k = none := by
      cases hg : bn.getNode k
      · rfl
      · exact absurd (by simp [hg]) hk
    have hG := getNode_ensure_of_absent bn hnone
    constructor
    · rw [keys_ensure_of_absent hnone]
      refine List.Nodup.append h.keysNodup (List.nodup_singleton k) ?_
      intro a ha hb
      rw [List.mem_singleton] at hb
      subst hb
      exact (lookupNode_eq_none_iff.mp hnone) ha
    · intro k' nd hnd
      rw [hG k'] at hnd
      by_cases hkk : k' = k
      · rw [if_pos hkk] at hnd
        cases hnd
        exact List.nodup_nil
      · rw [if_neg hkk] at hnd
        exact h.parentsNodup k' nd hnd
    · intro k' nd hnd
      rw [hG k'] at hnd
      by_cases hkk : k' = k
      · rw [if_pos hkk] at hnd
        cases hnd
        exact List.nodup_nil
      · rw [if_neg hkk] at hnd
        exact h.childrenNodup k' nd hnd
    · intro k' nd hnd x hx
      rw [hG k'] at hnd
      by_cases hkk : k' = k
      · rw [if_pos hkk] at hnd
        cases hnd
        simp at hx
      · rw [if_neg hkk] at hnd
        obtain ⟨nd', hx', hmem⟩ := h.parentsClosed k' nd hnd x hx
        refine ⟨nd', ?_, hmem⟩
        rw [hG x, if_neg ?_]
        · exact hx'
        · intro hxe
          rw [hxe, hnone] at hx'
          cases hx'
    · intro k' nd hnd x hx
      rw [hG k'] at hnd
      by_cases hkk : k' = k
      · rw [if_pos hkk] at hnd
        cases hnd
        simp at hx
      · rw [if_neg hkk] at hnd
        obtain ⟨nd', hx', hmem⟩ := h.childrenClosed k' nd hnd x hx
        refine ⟨nd', ?_, hmem⟩
        rw [hG x, if_neg ?_]
        · exact hx'
        · intro hxe
          rw [hxe, hnone] at hx'
          cases hx'

theorem getNode_ensure_isSome (bn : BN) (k : String) :
    ((bn.ensureNode k).getNode k).isSome := by
  by_cases hk : (bn.getNode k).isSome
  · rwa [getNode_ensure_of_present bn hk]
  · have hnone : bn.getNode k = none := by
      cases hg : bn.getNode k
      · rfl
      · exact absurd (by simp [hg]) hk
    rw [getNode_ensure_of_absent bn hnone k, if_pos rfl]
    rfl

theorem getNode_ensure_mono {bn : BN} {k' : String} (k : String)
    (h : ((bn.getNode k')).isSome) : ((bn.ensureNode k).getNode k').isSome := by
  by_cases hk : (bn.getNode k).isSome
  · rwa [getNode_ensure_of_present bn hk]
  · have hnone : bn.getNode k = none := by
      cases hg : bn.getNode k
      · rfl
      · exact absurd (by simp [hg]) hk
    rw [getNode_ensure_of_absent bn hnone k']
    by_cases hkk : k' = k
    · rw [if_pos hkk]
      rfl
    · rwa [if_neg hkk]

/-- The per-node rewrite `add_edge` applies to the node stored at key
`k` (after both endpoints exist). -/
def edgeTransform (p c k : String) (nd : Node) : Node :=
  let nd1 := if k = p then { nd with children := dictInsert nd.children c } else nd
  if k = c then { nd1 with parents := dictInsert nd1.parents p } else nd1

theorem getNode_add_edge (bn : BN) (p c k : String) :
    (bn.add_edge (p, c)).getNode k =
      (((bn.ensureNode p).ensureNode c).getNode k).map (edgeTransform p c k) := by
  show ((((bn.ensureNode p).ensureNode c).updateNode p _).updateNode c _).getNode k = _
  rw [getNode_update, getNode_update]
  by_cases h1 : k = c <;> by_cases h2 : k = p <;>
    cases hg : ((bn.ensureNode p).ensureNode c).getNode k <;>
    simp [h1, h2, edgeTransform] <;> split_ifs <;> simp_all

theorem edgeTransform_parents (p c k : String) (nd : Node) :
    (edgeTransform p c k nd).parents =
      if k = c then dictInsert nd.parents p else nd.parents := by
  unfold edgeTransform
  by_cases h1 : k = p <;> by_cases h2 : k = c <;> simp [h1, h2] <;>
    split_ifs <;> simp_all

theorem edgeTransform_children (p c k : String) (nd : Node) :
    (edgeTransform p c k nd).children =
      if k = p then dictInsert nd.children c else nd.children := by
  unfold edgeTransform
  by_cases h1 : k = p <;> by_cases h2 : k = c <;> simp [h1, h2] <;>
    split_ifs <;> simp_all

theorem keys_add_edge (bn : BN) (p c k : String) :
    k ∈ nodeKeys (bn.add_edge (p, c)).nodes ↔
      k ∈ nodeKeys bn.nodes ∨ k = p ∨ k = c := by
  show k ∈ nodeKeys ((((bn.ensureNode p).ensureNode c).updateNode p _).updateNode c _).nodes ↔ _
  rw [keys_update, keys_update, keys_ensure, keys_ensure]
  tauto

theorem WF.add_edge {bn : BN} (h : WF bn) (e : String × String) :
    WF (bn.add_edge e) := by
  obtain ⟨p, c⟩ := e
  have h1 : WF ((bn.ensureNode p).ensureNode c) := (h.ensure p).ensure c
  set bn1 := (bn.ensureNode p).ensureNode c with hbn1
  have hpS : (bn1.getNode p).isSome :=
    getNode_ensure_mono c (getNode_ensure_isSome bn p)
  have hcS : (bn1.getNode c).isSome := getNode_ensure_isSome (bn.ensureNode p) c
  obtain ⟨ndp, hndp⟩ := Option.isSome_iff_exists.mp hpS
  obtain ⟨ndc, hndc⟩ := Option.isSome_iff_exists.mp hcS
  have hG : ∀ k, (bn.add_edge (p, c)).getNode k =
      (bn1.getNode k).map (edgeTransform p c k) := getNode_add_edge bn p c
  constructor
  · have : nodeKeys (bn.add_edge (p, c)).nodes = nodeKeys bn1.nodes := by
      show nodeKeys ((bn1.updateNode p _).updateNode c _).nodes = _
      rw [keys_update, keys_update]
    rw [this]
    exact h1.keysNodup
  · intro k nd hnd
    rw [hG k] at hnd
    obtain ⟨nd1, hnd1, rfl⟩ := Option.map_eq_some'.mp hnd
    rw [edgeTransform_parents]
    by_cases hkc : k = c
    · rw [if_pos hkc]
      exact dictInsert_nodup (h1.parentsNodup k nd1 hnd1)
    · rw [if_neg hkc]
      exact h1.parentsNodup k nd1 hnd1
  · intro k nd hnd
    rw [hG k] at hnd
    obtain ⟨nd1, hnd1, rfl⟩ := Option.map_eq_some'.mp hnd
    rw [edgeTransform_children]
    by_cases hkp : k = p
    · rw [if_pos hkp]
      exact dictInsert_nodup (h1.childrenNodup k nd1 hnd1)
    · rw [if_neg hkp]
      exact h1.childrenNodup k nd1 hnd1
  · intro k nd hnd x hx
    rw [hG k] at hnd
    obtain ⟨nd1, hnd1, rfl⟩ := Option.map_eq_some'.mp hnd
    rw [edgeTransform_parents] at hx
    have hold : ∀ y ∈ nd1.parents,
        ∃ nd', (bn.add_edge (p, c)).getNode y = some nd' ∧ k ∈ nd'.children := by
      intro y hy
      obtain ⟨nd', hy', hmem⟩ := h1.parentsClosed k nd1 hnd1 y hy
      refine ⟨edgeTransform p c y nd', ?_, ?_⟩
      · rw [hG y, hy']
        rfl
      · rw [edgeTransform_children]
        by_cases hyp : y = p
        · rw [if_pos hyp]
          exact dictInsert_mem.mpr (Or.inl hmem)
        · rwa [if_neg hyp]
    by_cases hkc : k = c
    · rw [if_pos hkc] at hx
      rcases dictInsert_mem.mp hx with hx' | hxp
      · exact hold x hx'
      · subst hxp
        refine ⟨edgeTransform x c x ndp, ?_, ?_⟩
        · rw [hG x, hndp]
          rfl
        · rw [edgeTransform_children, if_pos rfl]
          rw [hkc]
          exact dictInsert_mem.mpr (Or.inr rfl)
    · rw [if_neg hkc] at hx
      exact hold x hx
  · intro k nd hnd x hx
    rw [hG k] at hnd
    obtain ⟨nd1, hnd1, rfl⟩ := Option.map_eq_some'.mp hnd
    rw [edgeTransform_children] at hx
    have hold : ∀ y ∈ nd1.children,
        ∃ nd', (bn.add_edge (p, c)).getNode y = some nd' ∧ k ∈ nd'.parents := by
      intro y hy
      obtain ⟨nd', hy', hmem⟩ := h1.childrenClosed k nd1 hnd1 y hy
      refine ⟨edgeTransform p c y nd', ?_, ?_⟩
      · rw [hG y, hy']
        rfl
      · rw [edgeTransform_parents]
        by_cases hyc : y = c
        · rw [if_pos hyc]
          exact dictInsert_mem.mpr (Or.inl hmem)
        · rwa [if_neg hyc]
    by_cases hkp : k = p
    · rw [if_pos hkp] at hx
      rcases dictInsert_mem.mp hx with hx' | hxc
      · exact hold x hx'
      · subst hxc
        refine ⟨edgeTransform p x x ndc, ?_, ?_⟩
        · rw [hG x, hndc]
          rfl
        · rw [edgeTransform_parents, if_pos rfl]
          rw [hkp]
          exact dictInsert_mem.mpr (Or.inr rfl)
    · rw [if_neg hkp] at hx
      exact hold x hx

theorem WF_buildBN (edges : List (String × String)) : WF (buildBN edges) :=
  foldl_rec WF BN.add_edge edges BN.empty WF.empty
    (fun _ e _ hbn => hbn.add_edge e)

/-! ### The adjacency of a built graph is exactly the inserted edge list -/

theorem getNode_ensure (bn : BN) (k k' : String) :
    (bn.ensureNode k).getNode k' =
      if k' = k ∧ bn.getNode k = none then some ⟨k, [], []⟩
      else bn.getNode k' := by
  by_cases h : (bn.getNode k).isSome
  · rw [getNode_ensure_of_present bn h, if_neg]
    rintro ⟨_, hnone⟩
    rw [hnone] at h
    simp at h
  · have hnone : bn.getNode k = none := Option.not_isSome_iff_eq_none.mp h
    rw [getNode_ensure_of_absent bn hnone k']
    by_cases hkk : k' = k
    · rw [if_pos hkk, if_pos ⟨hkk, hnone⟩]
    · rw [if_neg hkk, if_neg fun hh => hkk hh.1]

theorem getNode_ensure_ensure_of_some {bn : BN} {k : String} {nd : Node}
    (p c : String) (hk : bn.getNode k = some nd) :
    ((bn.ensureNode p).ensureNode c).getNode k = some nd := by
  have h1 : (bn.ensureNode p).getNode k = some nd := by
    rw [getNode_ensure, if_neg]
    · exact hk
    · rintro ⟨rfl, hnone⟩
      rw [hk] at hnone
      simp at hnone
  rw [getNode_ensure, if_neg]
  · exact h1
  · rintro ⟨rfl, hnone⟩
    rw [h1] at hnone
    simp at hnone

theorem getNode_ensure_ensure_of_none {bn : BN} {k : String} (p c : String)
    (hk : bn.getNode k = none) :
    ((bn.ensureNode p).ensureNode c).getNode k =
      if k = p then some ⟨k, [], []⟩
      else if k = c then some ⟨k, [], []⟩ else none := by
  by_cases hp : k = p
  · subst hp
    have h1 : (bn.ensureNode k).getNode k = some ⟨k, [], []⟩ := by
      rw [getNode_ensure, if_pos ⟨rfl, hk⟩]
    rw [if_pos rfl, getNode_ensure, if_neg]
    · exact h1
    · rintro ⟨rfl, hnone⟩
      rw [h1] at hnone
      simp at hnone
  · have h1 : (bn.ensureNode p).getNode k = none := by
      rw [getNode_ensure, if_neg fun hh => hp hh.1]
      exact hk
    rw [if_neg hp]
    by_cases hc : k = c
    · subst hc
      rw [if_pos rfl, getNode_ensure, if_pos ⟨rfl, h1⟩]
    · rw [if_neg hc, getNode_ensure, if_neg fun hh => hc hh.1]
      exact h1

/-- The graph `bn` records exactly the directed edges of the list `S`. -/
def EdgesSpec (bn : BN) (S : List (String × String)) : Prop :=
  (∀ k, k ∈ nodeKeys bn.nodes ↔ ∃ e ∈ S, e.1 = k ∨ e.2 = k) ∧
  (∀ k nd, bn.getNode k = some nd →
    (∀ x, x ∈ nd.parents ↔ (x, k) ∈ S) ∧
      (∀ x, x ∈ nd.children ↔ (k, x) ∈ S))

theorem edgesSpec_empty : EdgesSpec BN.empty [] := by
  constructor
  · intro k
    simp [BN.empty, nodeKeys]
  · intro k nd h
    simp [BN.getNode, BN.empty, lookupNode] at h

theorem edgesSpec_step {bn : BN} {S : List (String × String)}
    (h : EdgesSpec bn S) (e : String × String) :
    EdgesSpec (bn.add_edge e) (S ++ [e]) := by
  obtain ⟨p, c⟩ := e
  have hb1 : ∀ k nd1, ((bn.ensureNode p).ensureNode c).getNode k = some nd1 →
      (∀ x, x ∈ nd1.parents ↔ (x, k) ∈ S) ∧
        (∀ x, x ∈ nd1.children ↔ (k, x) ∈ S) := by
    intro k nd1 h1
    cases hk : bn.getNode k with
    | some nd0 =>
      rw [getNode_ensure_ensure_of_some p c hk] at h1
      injection h1 with h1e
      subst h1e
      exact h.2 k nd0 hk
    | none =>
      rw [getNode_ensure_ensure_of_none p c hk] at h1
      have hkeys : k ∉ nodeKeys bn.nodes := lookupNode_eq_none_iff.mp hk
      have hnd1 : nd1 = ⟨k, [], []⟩ := by
        split_ifs at h1 <;> simp_all
      subst hnd1
      constructor <;> intro x <;>
        simp only [List.not_mem_nil, false_iff] <;> intro hm
      · exact hkeys ((h.1 k).mpr ⟨(x, k), hm, Or.inr rfl⟩)
      · exact hkeys ((h.1 k).mpr ⟨(k, x), hm, Or.inl rfl⟩)
  constructor
  · intro k
    rw [keys_add_edge]
    constructor
    · rintro (hk | rfl | rfl)
      · obtain ⟨e', he', hor⟩ := (h.1 k).mp hk
        exact ⟨e', List.mem_append_left _ he', hor⟩
      · exact ⟨(k, c), List.mem_append_right _ (List.mem_singleton_self _),
          Or.inl rfl⟩
      · exact ⟨(p, k), List.mem_append_right _ (List.mem_singleton_self _),
          Or.inr rfl⟩
    · rintro ⟨e', he', hor⟩
      rcases List.mem_append.mp he' with he' | he'
      · exact Or.inl ((h.1 k).mpr ⟨e', he', hor⟩)
      · rw [List.mem_singleton] at he'
        subst he'
        rcases hor with hor | hor
        · exact Or.inr (Or.inl hor.symm)
        · exact Or.inr (Or.inr hor.symm)
  · intro k nd hnd
    rw [getNode_add_edge] at hnd
    obtain ⟨nd1, hnd1, rfl⟩ := Option.map_eq_some'.mp hnd
    obtain ⟨hpar, hchi⟩ := hb1 k nd1 hnd1
    constructor
    · intro x
      rw [edgeTransform_parents]
      by_cases hkc : k = c
      · subst hkc
        rw [if_pos rfl, dictInsert_mem, hpar x]
        simp only [List.mem_append, List.mem_singleton, Prod.mk.injEq]
        tauto
      · rw [if_neg hkc, hpar x]
        simp only [List.mem_append, List.mem_singleton, Prod.mk.injEq]
        constructor
        · exact fun hm => Or.inl hm
        · rintro (hm | ⟨-, rfl⟩)
          · exact hm
          · exact absurd rfl hkc
    · intro x
      rw [edgeTransform_children]
      by_cases hkp : k = p
      · subst hkp
        rw [if_pos rfl, dictInsert_mem, hchi x]
        simp only [List.mem_append, List.mem_singleton, Prod.mk.injEq]
        tauto
      · rw [if_neg hkp, hchi x]
        simp only [List.mem_append, List.mem_singleton, Prod.mk.injEq]
        constructor
        · exact fun hm => Or.inl hm
        · rintro (hm | ⟨rfl, -⟩)
          · exact hm
          · exact absurd rfl hkp

theorem edgesSpec_foldl :
    ∀ (es : List (String × String)) (bn : BN) (S : List (String × String)),
      EdgesSpec bn S → EdgesSpec (es.foldl BN.add_edge bn) (S ++ es)
  | [], bn, S, h => by simpa using h
  | e :: es, bn, S, h => by
    have := edgesSpec_foldl es (bn.add_edge e) (S ++ [e]) (edgesSpec_step h e)
    simpa using this

theorem buildBN_edgesSpec (edges : List (String × String)) :
    EdgesSpec (buildBN edges) edges := by
  have := edgesSpec_foldl edges BN.empty [] edgesSpec_empty
  simpa [buildBN] using this

theorem buildBN_keys {edges : List (String × String)} {k : String} :
    k ∈ nodeKeys (buildBN edges).nodes ↔ ∃ e ∈ edges, e.1 = k ∨ e.2 = k :=
  (buildBN_edgesSpec edges).1 k

theorem buildBN_parents {edges : List (String × String)} {k : String}
    {nd : Node} (h : (buildBN edges).getNode k = some nd) (x : String) :
    x ∈ nd.parents ↔ (x, k) ∈ edges :=
  ((buildBN_edgesSpec edges).2 k nd h).1 x

theorem buildBN_children {edges : List (String × String)} {k : String}
    {nd : Node} (h : (buildBN edges).getNode k = some nd) (x : String) :
    x ∈ nd.children ↔ (k, x) ∈ edges :=
  ((buildBN_edgesSpec edges).2 k nd h).2 x

/-! ### Skeleton lemmas -/

theorem pairMem_congr {p q : String × String} (h : pairEquiv p q)
    {l : List (String × String)} : pairMem p l ↔ pairMem q l := by
  rcases h with rfl | rfl
  · rfl
  · unfold pairMem swapPair
    exact or_comm

theorem pairMem_self {q : String × String} {l : List (String × String)}
    (h : q ∈ l) : pairMem q l := Or.inl h

theorem pairMem_append_single {q r : String × String}
    {l : List (String × String)} :
    pairMem q (l ++ [r]) ↔ pairMem q l ∨ pairEquiv r q := by
  unfold pairMem pairEquiv
  simp only [List.mem_append, List.mem_singleton]
  constructor
  · rintro ((h | h) | (h | h))
    · exact Or.inl (Or.inl h)
    · exact Or.inr (Or.inl h)
    · exact Or.inl (Or.inr h)
    · refine Or.inr (Or.inr ?_)
      rw [← h]
      simp [swapPair]
  · rintro ((h | h) | (h | h))
    · exact Or.inl (Or.inl h)
    · exact Or.inr (Or.inl h)
    · exact Or.inl (Or.inr h)
    · right
      right
      subst h
      simp [swapPair]

theorem skelInsert_pairMem {q : String × String} {sk : List (String × String)}
    {a b : String} :
    pairMem q (skelInsert sk a b) ↔ pairMem q sk ∨ pairEquiv (a, b) q := by
  unfold skelInsert
  by_cases h : (a, b) ∈ sk ∨ (b, a) ∈ sk
  · rw [if_pos h]
    constructor
    · exact Or.inl
    · rintro (hq | hq)
      · exact hq
      · exact (pairMem_congr hq).mp h
  · rw [if_neg h]
    exact pairMem_append_single

theorem skelInsert_subset {sk : List (String × String)} {a b : String} :
    sk ⊆ skelInsert sk a b := by
  unfold skelInsert
  split_ifs
  · exact fun x hx => hx
  · exact List.subset_append_left sk [(a, b)]

theorem skelInsert_src {x : String × String} {sk : List (String × String)}
    {a b : String} (h : x ∈ skelInsert sk a b) : x ∈ sk ∨ x = (a, b) := by
  unfold skelInsert at h
  split_ifs at h
  · exact Or.inl h
  · rcases List.mem_append.mp h with h | h
    · exact Or.inl h
    · exact Or.inr (List.mem_singleton.mp h)

theorem skelInsert_upairNoDup {sk : List (String × String)} {a b : String}
    (h : upairNoDup sk) : upairNoDup (skelInsert sk a b) := by
  unfold skelInsert
  split_ifs with hmem
  · exact h
  · unfold upairNoDup
    rw [List.pairwise_append]
    refine ⟨h, List.pairwise_singleton _ _, ?_⟩
    intro x hx y hy
    rw [List.mem_singleton] at hy
    subst hy
    intro he
    rcases he with he | he
    · exact hmem (Or.inl (he ▸ hx))
    · refine hmem (Or.inr ?_)
      have hx' : x = (b, a) := by
        have h2 := congrArg swapPair he
        simpa [swapPair] using h2.symm
      rwa [hx'] at hx

theorem foldl_skelInsert_pairMem (nname : String) (q : String × String) :
    ∀ (ps : List String) (sk : List (String × String)),
      pairMem q (ps.foldl (fun s y => skelInsert s nname y) sk) ↔
        pairMem q sk ∨ ∃ y ∈ ps, pairEquiv (nname, y) q
  | [], sk => by simp
  | y :: ps, sk => by
    rw [List.foldl_cons, foldl_skelInsert_pairMem nname q ps, skelInsert_pairMem]
    simp only [List.mem_cons]
    constructor
    · rintro ((h | h) | ⟨z, hz, h⟩)
      · exact Or.inl h
      · exact Or.inr ⟨y, Or.inl rfl, h⟩
      · exact Or.inr ⟨z, Or.inr hz, h⟩
    · rintro (h | ⟨z, rfl | hz, h⟩)
      · exact Or.inl (Or.inl h)
      · exact Or.inl (Or.inr h)
      · exact Or.inr ⟨z, hz, h⟩

theorem skelAddNode_pairMem {q : String × String} {sk : List (String × String)}
    {nname : String} {nd : Node} :
    pairMem q (skelAddNode sk nname nd) ↔
      pairMem q sk ∨ ∃ y ∈ nd.parents, pairEquiv (nname, y) q := by
  unfold skelAddNode
  rw [foldl_skelInsert_pairMem, foldl_skelInsert_pairMem]
  tauto

theorem skelAddNode_upairNoDup {sk : List (String × String)} {nname : String}
    {nd : Node} (h : upairNoDup sk) : upairNoDup (skelAddNode sk nname nd) := by
  unfold skelAddNode
  refine foldl_rec upairNoDup _ nd.parents _ ?_ ?_
  · exact foldl_rec upairNoDup _ nd.parents sk h
      fun s y _ hs => skelInsert_upairNoDup hs
  · exact fun s y _ hs => skelInsert_upairNoDup hs

theorem get_skeleton_upairNoDup (bn : BN) : upairNoDup bn.get_skeleton := by
  unfold BN.get_skeleton
  exact foldl_rec upairNoDup _ bn.nodes []
    (by unfold upairNoDup; exact List.Pairwise.nil)
    fun sk en _ hs => skelAddNode_upairNoDup hs

theorem get_skeleton_pairMem {bn : BN} {q : String × String} :
    pairMem q bn.get_skeleton ↔
      ∃ en ∈ bn.nodes, ∃ y ∈ en.2.parents, pairEquiv (en.1, y) q := by
  unfold BN.get_skeleton
  suffices h : ∀ (l : List (String × Node)) (sk : List (String × String)),
      pairMem q (l.foldl (fun s en => skelAddNode s en.1 en.2) sk) ↔
        pairMem q sk ∨ ∃ en ∈ l, ∃ y ∈ en.2.parents, pairEquiv (en.1, y) q by
    rw [h bn.nodes []]
    simp [pairMem]
  intro l
  induction l with
  | nil => simp
  | cons en l ih =>
    intro sk
    rw [List.foldl_cons, ih, skelAddNode_pairMem]
    simp only [List.mem_cons]
    constructor
    · rintro ((h | ⟨y, hy, h⟩) | ⟨z, hz, hh⟩)
      · exact Or.inl h
      · exact Or.inr ⟨en, Or.inl rfl, y, hy, h⟩
      · exact Or.inr ⟨z, Or.inr hz, hh⟩
    · rintro (h | ⟨z, rfl | hz, hh⟩)
      · exact Or.inl (Or.inl h)
      · exact Or.inl (Or.inr hh)
      · exact Or.inr ⟨z, hz, hh⟩

theorem pairEquiv_swap (p q : String × String) :
    pairEquiv (swapPair p) q ↔ pairEquiv p q := by
  unfold pairEquiv
  rw [swapPair_swapPair]
  exact or_comm

/-- Up to orientation, the skeleton of a built graph is exactly the
inserted edge list. -/
theorem get_skeleton_buildBN {edges : List (String × String)}
    {q : String × String} :
    pairMem q (buildBN edges).get_skeleton ↔ pairMem q edges := by
  rw [get_skeleton_pairMem, pairMem_iff_exists]
  constructor
  · rintro ⟨en, hen, y, hy, h⟩
    have hwf := WF_buildBN edges
    have hlk : (buildBN edges).getNode en.1 = some en.2 :=
      mem_lookupNode hwf.keysNodup (by exact hen)
    have hedge : (y, en.1) ∈ edges := (buildBN_parents hlk y).mp hy
    refine ⟨(y, en.1), hedge, ?_⟩
    have : pairEquiv (swapPair (y, en.1)) q := h
    rw [pairEquiv_swap] at this
    exact pairEquiv_symm this
  · rintro ⟨e, he, h⟩
    have hkey : e.2 ∈ nodeKeys (buildBN edges).nodes :=
      buildBN_keys.mpr ⟨e, he, Or.inr rfl⟩
    obtain ⟨nd, hnd⟩ := Option.isSome_iff_exists.mp
      (lookupNode_isSome_iff.mpr hkey)
    have hy : e.1 ∈ nd.parents := (buildBN_parents hnd e.1).mpr (by
      simpa using he)
    refine ⟨(e.2, nd), lookupNode_mem hnd, e.1, hy, ?_⟩
    have : pairEquiv (swapPair (e.1, e.2)) q ↔ pairEquiv (e.1, e.2) q :=
      pairEquiv_swap _ q
    rw [show ((e.2 : String), (nd : Node)).1 = e.2 from rfl]
    have he2 : pairEquiv (e.1, e.2) q := by
      have : pairEquiv e q := pairEquiv_symm h
      simpa using this
    simpa [swapPair] using (pairEquiv_swap (e.1, e.2) q).mpr he2

/-! ### Counting unordered pairs via canonical orientations -/

theorem canon_subset_of_pairMem {l1 l2 : List (String × String)}
    (h : ∀ q ∈ l1, pairMem q l2) : l1.map canonPair ⊆ l2.map canonPair := by
  intro x hx
  rcases List.mem_map.mp hx with ⟨q, hq, rfl⟩
  exact canonPair_mem_map.mpr (h q hq)

theorem length_le_of_upair_subset {l1 l2 : List (String × String)}
    (h1 : upairNoDup l1) (h : ∀ q ∈ l1, pairMem q l2) :
    l1.length ≤ l2.length := by
  have hle :=
    ((upairNoDup_map_canon h1).subperm (canon_subset_of_pairMem h)).length_le
  simpa using hle

theorem sameUPairs_of_length_subset {l1 l2 : List (String × String)}
    (h1 : upairNoDup l1) (hlen : l1.length = l2.length)
    (h : ∀ q ∈ l1, pairMem q l2) : sameUPairs l1 l2 := by
  have hsub : List.Subperm (l1.map canonPair) (l2.map canonPair) :=
    (upairNoDup_map_canon h1).subperm (canon_subset_of_pairMem h)
  obtain ⟨l', hperm, hsl⟩ := hsub
  have hlen' : l'.length = (l2.map canonPair).length := by
    rw [hperm.length_eq]
    simp [hlen]
  have heq : l' = l2.map canonPair := hsl.eq_of_length hlen'
  have hpermfull : List.Perm (l1.map canonPair) (l2.map canonPair) :=
    heq ▸ hperm.symm
  intro p
  constructor
  · intro hp
    exact canonPair_mem_map.mp (hpermfull.mem_iff.mp (canonPair_mem_map.mpr hp))
  · intro hp
    exact canonPair_mem_map.mp (hpermfull.mem_iff.mpr (canonPair_mem_map.mpr hp))

theorem length_eq_of_sameUPairs {l1 l2 : List (String × String)}
    (h1 : upairNoDup l1) (h2 : upairNoDup l2) (hs : sameUPairs l1 l2) :
    l1.length = l2.length :=
  le_antisymm
    (length_le_of_upair_subset h1 fun q hq => (hs q).mp (pairMem_self hq))
    (length_le_of_upair_subset h2 fun q hq => (hs q).mpr (pairMem_self hq))

/-! ### Immorality lemmas -/

theorem immorInsert_pairMem {q pr : String × String}
    {sk im : List (String × String)} :
    pairMem q (immorInsert sk im pr) ↔
      pairMem q im ∨ (¬ pairMem pr sk ∧ pairEquiv pr q) := by
  unfold immorInsert
  by_cases hcond : (pr.1, pr.2) ∉ sk ∧ (pr.2, pr.1) ∉ sk ∧
      (pr.1, pr.2) ∉ im ∧ (pr.2, pr.1) ∉ im
  · rw [if_pos hcond]
    have hns : ¬ pairMem pr sk := fun hm => hm.elim hcond.1 hcond.2.1
    rw [pairMem_append_single]
    tauto
  · rw [if_neg hcond]
    constructor
    · exact Or.inl
    · rintro (h | ⟨hns, heq⟩)
      · exact h
      · have ha : (pr.1, pr.2) ∉ sk := fun hm => hns (Or.inl hm)
        have hb : (pr.2, pr.1) ∉ sk := fun hm => hns (Or.inr hm)
        have him : pairMem pr im := by
          unfold pairMem
          by_contra hno
          exact hcond ⟨ha, hb, fun hm => hno (Or.inl hm),
            fun hm => hno (Or.inr hm)⟩
        exact (pairMem_congr heq).mp him

theorem immorInsert_upairNoDup {sk im : List (String × String)}
    {pr : String × String} (h : upairNoDup im) :
    upairNoDup (immorInsert sk im pr) := by
  unfold immorInsert
  split_ifs with hcond
  · unfold upairNoDup
    rw [List.pairwise_append]
    refine ⟨h, List.pairwise_singleton _ _, ?_⟩
    intro x hx y hy
    rw [List.mem_singleton] at hy
    subst hy
    rintro (he | he)
    · exact hcond.2.2.1 (he ▸ hx)
    · refine hcond.2.2.2 ?_
      have hx' : x = (pr.2, pr.1) := by
        have h2 := congrArg swapPair he
        simpa [swapPair] using h2.symm
      rwa [hx'] at hx
  · exact h

theorem foldl_immorInsert_pairMem (sk : List (String × String))
    (q : String × String) :
    ∀ (prs : List (String × String)) (im : List (String × String)),
      pairMem q (prs.foldl (fun im' pr => immorInsert sk im' pr) im) ↔
        pairMem q im ∨ ∃ pr ∈ prs, ¬ pairMem pr sk ∧ pairEquiv pr q
  | [], im => by simp
  | pr :: prs, im => by
    rw [List.foldl_cons, foldl_immorInsert_pairMem sk q prs, immorInsert_pairMem]
    simp only [List.mem_cons]
    constructor
    · rintro ((h | h) | ⟨z, hz, hh⟩)
      · exact Or.inl h
      · exact Or.inr ⟨pr, Or.inl rfl, h⟩
      · exact Or.inr ⟨z, Or.inr hz, hh⟩
    · rintro (h | ⟨z, rfl | hz, hh⟩)
      · exact Or.inl (Or.inl h)
      · exact Or.inl (Or.inr hh)
      · exact Or.inr ⟨z, hz, hh⟩

theorem pairsAfter_nil_of_short {l : List String} (h : ¬ l.length > 1) :
    pairsAfter l = [] := by
  cases l with
  | nil => rfl
  | cons x xs =>
    cases xs with
    | nil => simp [pairsAfter]
    | cons y ys => simp at h

theorem get_skeleton_immor_snd_eq (bn : BN) :
    bn.get_skeleton_immor.2 = bn.nodes.foldl
      (fun im en => (pairsAfter en.2.parents).foldl
        (fun im' pr => immorInsert bn.get_skeleton im' pr) im) [] := by
  show bn.nodes.foldl _ [] = _
  congr 1
  funext im en
  by_cases h : en.2.parents.length > 1
  · rw [if_pos h]
  · rw [if_neg h, pairsAfter_nil_of_short h]
    rfl

theorem get_skeleton_immor_pairMem {bn : BN} {q : String × String} :
    pairMem q bn.get_skeleton_immor.2 ↔
      ∃ en ∈ bn.nodes, ∃ pr ∈ pairsAfter en.2.parents,
        ¬ pairMem pr bn.get_skeleton ∧ pairEquiv pr q := by
  rw [get_skeleton_immor_snd_eq]
  suffices h : ∀ (l : List (String × Node)) (im : List (String × String)),
      pairMem q (l.foldl (fun im' en => (pairsAfter en.2.parents).foldl
          (fun im'' pr => immorInsert bn.get_skeleton im'' pr) im') im) ↔
        pairMem q im ∨ ∃ en ∈ l, ∃ pr ∈ pairsAfter en.2.parents,
          ¬ pairMem pr bn.get_skeleton ∧ pairEquiv pr q by
    rw [h bn.nodes []]
    simp [pairMem]
  intro l
  induction l with
  | nil => simp
  | cons en l ih =>
    intro im
    rw [List.foldl_cons, ih, foldl_immorInsert_pairMem]
    simp only [List.mem_cons]
    constructor
    · rintro ((h | ⟨pr, hpr, hh⟩) | ⟨z, hz, hh⟩)
      · exact Or.inl h
      · exact Or.inr ⟨en, Or.inl rfl, pr, hpr, hh⟩
      · exact Or.inr ⟨z, Or.inr hz, hh⟩
    · rintro (h | ⟨z, rfl | hz, hh⟩)
      · exact Or.inl (Or.inl h)
      · exact Or.inl (Or.inr hh)
      · exact Or.inr ⟨z, hz, hh⟩

theorem get_skeleton_immor_upairNoDup (bn : BN) :
    upairNoDup bn.get_skeleton_immor.2 := by
  rw [get_skeleton_immor_snd_eq]
  refine foldl_rec upairNoDup _ bn.nodes []
    (by unfold upairNoDup; exact List.Pairwise.nil) ?_
  intro im en _ him
  exact foldl_rec upairNoDup _ (pairsAfter en.2.parents) im him
    fun im' pr _ h => immorInsert_upairNoDup h

theorem pairsAfter_mem {pr : String × String} :
    ∀ {l : List String}, pr ∈ pairsAfter l → l.Nodup →
      pr.1 ∈ l ∧ pr.2 ∈ l ∧ pr.1 ≠ pr.2 := by
  intro l
  induction l with
  | nil => intro h; simp [pairsAfter] at h
  | cons p ps ih =>
    intro h hnd
    rw [List.nodup_cons] at hnd
    unfold pairsAfter at h
    rcases List.mem_append.mp h with h | h
    · rcases List.mem_map.mp h with ⟨y, hy, rfl⟩
      refine ⟨List.mem_cons_self _ _, List.mem_cons_of_mem _ hy, ?_⟩
      intro he
      rw [show ((p, y) : String × String).1 = p from rfl] at he
      exact hnd.1 (he ▸ hy)
    · obtain ⟨h1, h2, h3⟩ := ih h hnd.2
      exact ⟨List.mem_cons_of_mem _ h1, List.mem_cons_of_mem _ h2, h3⟩

theorem mem_pairsAfter {a b : String} :
    ∀ {l : List String}, a ∈ l → b ∈ l → a ≠ b →
      (a, b) ∈ pairsAfter l ∨ (b, a) ∈ pairsAfter l := by
  intro l
  induction l with
  | nil => intro ha; simp at ha
  | cons p ps ih =>
    intro ha hb hab
    rcases List.mem_cons.mp ha with rfl | ha
    · have hb' : b ∈ ps := by
        rcases List.mem_cons.mp hb with he | hb'
        · exact absurd he.symm hab
        · exact hb'
      left
      unfold pairsAfter
      exact List.mem_append_left _ (List.mem_map_of_mem _ hb')
    · rcases List.mem_cons.mp hb with rfl | hb'
      · have ha' : a ∈ ps := by
          rcases List.mem_cons.mp ha with he | ha'
          · exact absurd he hab
          · exact ha'
        right
        unfold pairsAfter
        exact List.mem_append_left _ (List.mem_map_of_mem _ ha')
      · unfold pairsAfter
        refine (ih ha hb' hab).imp ?_ ?_ <;>
          exact fun hm => List.mem_append_right _ hm

/-! ### Claim theorems about the skeleton, immoralities and equivalence -/

/-- C4: for every pair of graphs, `check_iequv` returns `true` exactly when
the two skeletons agree as sets of unordered pairs and the two immorality
sets agree as sets of unordered pairs; the size fast-fail plus the
one-directional orientation-agnostic membership checks decide exactly this
bidirectional set equality. -/
theorem check_iequv_iff_sameUPairs (bn1 bn2 : BN) :
    check_iequv bn1 bn2 = true ↔
      sameUPairs bn1.get_skeleton_immor.1 bn2.get_skeleton_immor.1 ∧
        sameUPairs bn1.get_skeleton_immor.2 bn2.get_skeleton_immor.2 := by
  have hck : check_iequv bn1 bn2 =
      if bn1.get_skeleton_immor.1.length ≠ bn2.get_skeleton_immor.1.length ∨
          bn1.get_skeleton_immor.2.length ≠ bn2.get_skeleton_immor.2.length
      then false
      else
        (bn1.get_skeleton_immor.2.all fun q =>
          decide ((q.1, q.2) ∈ bn2.get_skeleton_immor.2 ∨
            (q.2, q.1) ∈ bn2.get_skeleton_immor.2)) &&
        (bn1.get_skeleton_immor.1.all fun q =>
          decide ((q.1, q.2) ∈ bn2.get_skeleton_immor.1 ∨
            (q.2, q.1) ∈ bn2.get_skeleton_immor.1)) := rfl
  have hnd1s : upairNoDup bn1.get_skeleton_immor.1 := get_skeleton_upairNoDup bn1
  have hnd2s : upairNoDup bn2.get_skeleton_immor.1 := get_skeleton_upairNoDup bn2
  have hnd1i : upairNoDup bn1.get_skeleton_immor.2 :=
    get_skeleton_immor_upairNoDup bn1
  have hnd2i : upairNoDup bn2.get_skeleton_immor.2 :=
    get_skeleton_immor_upairNoDup bn2
  rw [hck]
  by_cases hlen : bn1.get_skeleton_immor.1.length ≠
      bn2.get_skeleton_immor.1.length ∨
      bn1.get_skeleton_immor.2.length ≠ bn2.get_skeleton_immor.2.length
  · rw [if_pos hlen]
    simp only [Bool.false_eq_true, false_iff]
    rintro ⟨hs, hi⟩
    rcases hlen with hlen | hlen
    · exact hlen (length_eq_of_sameUPairs hnd1s hnd2s hs)
    · exact hlen (length_eq_of_sameUPairs hnd1i hnd2i hi)
  · rw [if_neg hlen]
    push_neg at hlen
    rw [Bool.and_eq_true, List.all_eq_true, List.all_eq_true]
    constructor
    · rintro ⟨hi, hs⟩
      constructor
      · refine sameUPairs_of_length_subset hnd1s hlen.1 ?_
        intro q hq
        have := hs q hq
        rwa [decide_eq_true_eq] at this
      · refine sameUPairs_of_length_subset hnd1i hlen.2 ?_
        intro q hq
        have := hi q hq
        rwa [decide_eq_true_eq] at this
    · rintro ⟨hs, hi⟩
      constructor
      · intro q hq
        rw [decide_eq_true_eq]
        exact (hi q).mp (pairMem_self hq)
      · intro q hq
        rw [decide_eq_true_eq]
        exact (hs q).mp (pairMem_self hq)

/-- C5 counterexample: inserting the two distinct directed edges
`A→B` and `B→A` yields a skeleton with a single entry, so the skeleton
size is not the number of distinct directed edges inserted. -/
theorem get_skeleton_size_counterexample :
    (buildBN [("A", "B"), ("B", "A")]).get_skeleton.length = 1 ∧
      [(("A" : String), ("B" : String)), ("B", "A")].length = 2 ∧
      [(("A" : String), ("B" : String)), ("B", "A")].Nodup := by
  refine ⟨?_, rfl, by decide⟩
  rfl

/-- C5 (amended): for every graph built by `add_edge` calls, the skeleton
lists each unordered pair in exactly one orientation, contains an unordered
pair exactly when some inserted edge joins those two names, and its size is
the number of distinct unordered pairs among the inserted edges (for a DAG
input, where no two inserted edges join the same two names, this is the
number of distinct directed edges). -/
theorem get_skeleton_amended (edges : List (String × String)) :
    upairNoDup (buildBN edges).get_skeleton ∧
      (∀ q, pairMem q (buildBN edges).get_skeleton ↔ pairMem q edges) ∧
      (buildBN edges).get_skeleton.length =
        ((edges.map canonPair).dedup).length := by
  refine ⟨get_skeleton_upairNoDup _, fun q => get_skeleton_buildBN, ?_⟩
  have hm1 : ((buildBN edges).get_skeleton.map canonPair).Nodup :=
    upairNoDup_map_canon (get_skeleton_upairNoDup _)
  have hm2 : ((edges.map canonPair).dedup).Nodup := List.nodup_dedup _
  have hsub1 : (buildBN edges).get_skeleton.map canonPair ⊆
      (edges.map canonPair).dedup := by
    intro x hx
    rcases List.mem_map.mp hx with ⟨q, hq, rfl⟩
    rw [List.mem_dedup]
    exact canonPair_mem_map.mpr (get_skeleton_buildBN.mp (pairMem_self hq))
  have hsub2 : (edges.map canonPair).dedup ⊆
      (buildBN edges).get_skeleton.map canonPair := by
    intro x hx
    rw [List.mem_dedup] at hx
    rcases List.mem_map.mp hx with ⟨e, he, rfl⟩
    exact canonPair_mem_map.mpr (get_skeleton_buildBN.mpr (pairMem_self he))
  have hle1 := (hm1.subperm hsub1).length_le
  have hle2 := (hm2.subperm hsub2).length_le
  have : ((buildBN edges).get_skeleton.map canonPair).length =
      ((edges.map canonPair).dedup).length := le_antisymm hle1 hle2
  simpa using this

/-- C6: for every graph built by `add_edge` calls, the immorality set
contains an unordered pair (in some orientation) exactly when some node has
both components as two distinct parents and the pair is not an edge of the
skeleton; each unordered pair appears at most once, in a single
orientation. -/
theorem get_skeleton_immor_spec (edges : List (String × String)) :
    upairNoDup (buildBN edges).get_skeleton_immor.2 ∧
      ∀ p1 p2 : String,
        pairMem (p1, p2) (buildBN edges).get_skeleton_immor.2 ↔
          ∃ k nd, (buildBN edges).getNode k = some nd ∧
            p1 ∈ nd.parents ∧ p2 ∈ nd.parents ∧ p1 ≠ p2 ∧
            ¬ pairMem (p1, p2) (buildBN edges).get_skeleton_immor.1 := by
  have hwf := WF_buildBN edges
  refine ⟨get_skeleton_immor_upairNoDup _, fun p1 p2 => ?_⟩
  have hfst : (buildBN edges).get_skeleton_immor.1 =
      (buildBN edges).get_skeleton := rfl
  rw [hfst, get_skeleton_immor_pairMem]
  constructor
  · rintro ⟨en, hen, pr, hpr, hnsk, heq⟩
    have hlk : (buildBN edges).getNode en.1 = some en.2 :=
      mem_lookupNode hwf.keysNodup (by exact hen)
    obtain ⟨hp1, hp2, hne⟩ :=
      pairsAfter_mem hpr (hwf.parentsNodup en.1 en.2 hlk)
    have hnsk' : ¬ pairMem (p1, p2) (buildBN edges).get_skeleton :=
      fun hm => hnsk ((pairMem_congr heq).mpr hm)
    rcases heq with heq | heq
    · have h1 : p1 = pr.1 := congrArg Prod.fst heq
      have h2 : p2 = pr.2 := congrArg Prod.snd heq
      exact ⟨en.1, en.2, hlk, h1 ▸ hp1, h2 ▸ hp2,
        fun hc => hne (h1 ▸ h2 ▸ hc), hnsk'⟩
    · have h1 : p1 = pr.2 := congrArg Prod.fst heq
      have h2 : p2 = pr.1 := congrArg Prod.snd heq
      exact ⟨en.1, en.2, hlk, h1 ▸ hp2, h2 ▸ hp1,
        fun hc => hne (h2 ▸ h1 ▸ hc.symm), hnsk'⟩
  · rintro ⟨k, nd, hnd, hp1, hp2, hne, hnsk⟩
    have hen : (k, nd) ∈ (buildBN edges).nodes := lookupNode_mem hnd
    rcases mem_pairsAfter hp1 hp2 hne with hpr | hpr
    · exact ⟨(k, nd), hen, (p1, p2), hpr, hnsk, Or.inl rfl⟩
    · refine ⟨(k, nd), hen, (p2, p1), hpr, ?_, Or.inr rfl⟩
      intro hm
      apply hnsk
      rcases hm with hm | hm
      · exact Or.inr hm
      · exact Or.inl hm

/-- C9: after any sequence of `add_edge` calls starting from the empty
graph, the adjacency maps are mutually consistent: each name in a node's
parents map denotes a node of the graph whose children map holds the first
node's name, and symmetrically for children. -/
theorem add_edge_consistency (edges : List (String × String)) :
    (∀ q ∈ (buildBN edges).nodes, ∀ x ∈ q.2.parents,
        ∃ nd', (buildBN edges).getNode x = some nd' ∧ q.1 ∈ nd'.children) ∧
      (∀ q ∈ (buildBN edges).nodes, ∀ x ∈ q.2.children,
        ∃ nd', (buildBN edges).getNode x = some nd' ∧ q.1 ∈ nd'.parents) := by
  have hwf := WF_buildBN edges
  constructor
  · intro q hq x hx
    exact hwf.parentsClosed q.1 q.2 (mem_lookupNode hwf.keysNodup (by exact hq)) x hx
  · intro q hq x hx
    exact hwf.childrenClosed q.1 q.2 (mem_lookupNode hwf.keysNodup (by exact hq)) x hx

/-! ### `find_obs_anc` lemmas -/

theorem foldl_setAdd_mem {x : String} :
    ∀ (ps acc : List String), x ∈ ps.foldl setAdd acc ↔ x ∈ acc ∨ x ∈ ps
  | [], acc => by simp
  | p :: ps, acc => by
    rw [List.foldl_cons, foldl_setAdd_mem ps]
    unfold setAdd
    by_cases h : p ∈ acc
    · rw [if_pos h]
      simp only [List.mem_cons]
      constructor
      · rintro (h1 | h1)
        · exact Or.inl h1
        · exact Or.inr (Or.inr h1)
      · rintro (h1 | rfl | h1)
        · exact Or.inl h1
        · exact Or.inl h
        · exact Or.inr h1
    · rw [if_neg h]
      simp only [List.mem_append, List.mem_singleton, List.mem_cons]
      tauto

theorem obsAncLoop_spec (bn : BN) :
    ∀ (vs acc : List String),
      (∀ v ∈ vs, (bn.getNode v).isSome) →
      ∃ r, obsAncLoop bn vs acc = some r ∧
        ∀ x, x ∈ r ↔ x ∈ acc ∨
          ∃ v ∈ vs, ∃ nd, bn.getNode v = some nd ∧ x ∈ nd.parents
  | [], acc, _ => ⟨acc, rfl, by simp⟩
  | v :: vs, acc, hall => by
    obtain ⟨nd, hnd⟩ := Option.isSome_iff_exists.mp
      (hall v (List.mem_cons_self v vs))
    obtain ⟨r, hr, hmem⟩ := obsAncLoop_spec bn vs (nd.parents.foldl setAdd acc)
      fun u hu => hall u (List.mem_cons_of_mem _ hu)
    refine ⟨r, ?_, ?_⟩
    · unfold obsAncLoop
      rw [hnd]
      exact hr
    · intro x
      rw [hmem x, foldl_setAdd_mem]
      simp only [List.mem_cons]
      constructor
      · rintro ((h | h) | ⟨u, hu, nd', hnd', hx⟩)
        · exact Or.inl h
        · exact Or.inr ⟨v, Or.inl rfl, nd, hnd, h⟩
        · exact Or.inr ⟨u, Or.inr hu, nd', hnd', hx⟩
      · rintro (h | ⟨u, rfl | hu', nd', hnd', hx⟩)
        · exact Or.inl (Or.inl h)
        · rw [hnd] at hnd'
          injection hnd' with he
          subst he
          exact Or.inl (Or.inr hx)
        · exact Or.inr ⟨u, hu', nd', hnd', hx⟩

theorem obsAncLoop_none (bn : BN) :
    ∀ (vs acc : List String) (z : String), z ∈ vs → bn.getNode z = none →
      obsAncLoop bn vs acc = none
  | [], _, z, hz, _ => absurd hz (List.not_mem_nil z)
  | v :: vs, acc, z, hz, hznone => by
    unfold obsAncLoop
    cases hnd : bn.getNode v with
    | none => rfl
    | some nd =>
      rcases List.mem_cons.mp hz with rfl | hz'
      · rw [hnd] at hznone
        cases hznone
      · exact obsAncLoop_none bn vs _ z hz' hznone

/-- C1: for every graph and every list of observed names all present in
the graph, `find_obs_anc` succeeds and returns exactly the set of names
that are a direct parent of at least one observed node — one hop only. -/
theorem find_obs_anc_spec (bn : BN) (observed : List String)
    (hobs : ∀ o ∈ observed, (bn.getNode o).isSome) :
    ∃ r, bn.find_obs_anc observed = some r ∧
      ∀ x, x ∈ r ↔
        ∃ o ∈ observed, ∃ nd, bn.getNode o = some nd ∧ x ∈ nd.parents := by
  obtain ⟨r, hr, hmem⟩ := obsAncLoop_spec bn observed.reverse []
    fun v hv => hobs v (List.mem_reverse.mp hv)
  refine ⟨r, hr, fun x => ?_⟩
  rw [hmem x]
  simp only [List.not_mem_nil, false_or, List.mem_reverse]

/-- C1 witness: on the collider graph `A→B←C` with `B` observed,
`find_obs_anc` returns exactly the direct parents of `B`. -/
theorem find_obs_anc_spec_witness :
    (∀ o ∈ ["B"], (((buildBN [("A", "B"), ("C", "B")]).getNode o)).isSome) ∧
      ∃ r, (buildBN [("A", "B"), ("C", "B")]).find_obs_anc ["B"] = some r ∧
        ∀ x, x ∈ r ↔ ∃ o ∈ ["B"],
          ∃ nd, (buildBN [("A", "B"), ("C", "B")]).getNode o = some nd ∧
            x ∈ nd.parents :=
  ⟨by decide, find_obs_anc_spec (buildBN [("A", "B"), ("C", "B")]) ["B"]
    (by decide)⟩

/-! ### Reachability states of the d-separation traversal -/

/-- All `(name, direction)` states over the graph's node keys. -/
def allStates (bn : BN) : List (String × Dir) :=
  (nodeKeys bn.nodes).map (fun n => (n, Dir.up)) ++
    (nodeKeys bn.nodes).map (fun n => (n, Dir.down))

theorem mem_allStates {bn : BN} {s : String × Dir} :
    s ∈ allStates bn ↔ s.1 ∈ nodeKeys bn.nodes := by
  obtain ⟨n, d⟩ := s
  cases d <;> simp [allStates]

theorem length_allStates (bn : BN) :
    (allStates bn).length = 2 * bn.nodes.length := by
  simp [allStates, nodeKeys]
  omega

/-- One transition of the reachability traversal: `t` is one of the states
the loop pushes when it expands `s`. -/
def DStep (bn : BN) (observed obs_anc : List String)
    (s t : String × Dir) : Prop :=
  ∃ nd, bn.getNode s.1 = some nd ∧ t ∈ pushStates nd s.2 s.1 observed obs_anc

/-- Reachability in the traversal's state space. -/
def Reaches (bn : BN) (observed obs_anc : List String) :
    String × Dir → String × Dir → Prop :=
  Relation.ReflTransGen (DStep bn observed obs_anc)

theorem pushStates_length_le (nd : Node) (dir : Dir) (nname : String)
    (observed obs_anc : List String) :
    (pushStates nd dir nname observed obs_anc).length ≤
      nd.parents.length + nd.children.length := by
  cases dir <;> simp only [pushStates] <;> split_ifs <;> simp <;> omega

theorem pushStates_names {nd : Node} {dir : Dir} {nname : String}
    {observed obs_anc : List String} {t : String × Dir}
    (h : t ∈ pushStates nd dir nname observed obs_anc) :
    t.1 ∈ nd.parents ∨ t.1 ∈ nd.children := by
  cases dir <;> simp only [pushStates] at h
  · split_ifs at h with h1
    · exact absurd h (List.not_mem_nil t)
    · rcases List.mem_append.mp h with h | h <;>
        rcases List.mem_map.mp h with ⟨y, hy, rfl⟩
      · exact Or.inl hy
      · exact Or.inr hy
  · rcases List.mem_append.mp h with h | h
    · split_ifs at h with h1
      · exact absurd h (List.not_mem_nil t)
      · rcases List.mem_map.mp h with ⟨y, hy, rfl⟩
        exact Or.inr hy
    · split_ifs at h with h1
      · rcases List.mem_map.mp h with ⟨y, hy, rfl⟩
        exact Or.inl hy
      · exact absurd h (List.not_mem_nil t)

theorem nat_le_sum_of_mem : ∀ {l : List Nat} {a : Nat}, a ∈ l → a ≤ l.sum
  | [], a, h => absurd h (List.not_mem_nil a)
  | b :: l, a, h => by
    rcases List.mem_cons.mp h with rfl | h
    · simp [List.sum_cons]
    · have := nat_le_sum_of_mem h
      simp only [List.sum_cons]
      omega

theorem adj_le_totalAdj {bn : BN} {k : String} {nd : Node}
    (h : bn.getNode k = some nd) :
    nd.parents.length + nd.children.length ≤ bn.totalAdj :=
  nat_le_sum_of_mem
    (List.mem_map_of_mem (fun p => p.2.parents.length + p.2.children.length)
      (lookupNode_mem h))

/-- Closure of adjacency names under the node-key set, a consequence of
`WF`. -/
theorem WF.closed {bn : BN} (hwf : WF bn) {k : String} {nd : Node}
    (h : bn.getNode k = some nd) :
    (∀ x ∈ nd.parents, x ∈ nodeKeys bn.nodes) ∧
      (∀ x ∈ nd.children, x ∈ nodeKeys bn.nodes) := by
  constructor
  · intro x hx
    obtain ⟨nd', hnd', -⟩ := hwf.parentsClosed k nd h x hx
    exact lookupNode_isSome_iff.mp (by simp [BN.getNode] at hnd' ⊢; simp [hnd'])
  · intro x hx
    obtain ⟨nd', hnd', -⟩ := hwf.childrenClosed k nd h x hx
    exact lookupNode_isSome_iff.mp (by simp [BN.getNode] at hnd' ⊢; simp [hnd'])

/-! ### Unfolding the d-separation loop -/

theorem dsepLoop_cons {bn : BN} {qend : String} {observed obs_anc : List String}
    {fuel : Nat} {s : String × Dir} {rest visited : List (String × Dir)}
    {nd : Node} (hnd : bn.getNode s.1 = some nd) :
    dsepLoop bn qend observed obs_anc (fuel + 1) (s :: rest) visited =
      if s ∈ visited then dsepLoop bn qend observed obs_anc fuel rest visited
      else if s.1 ∉ observed ∧ s.1 = qend then some (false, s :: visited)
      else dsepLoop bn qend observed obs_anc fuel
        ((pushStates nd s.2 s.1 observed obs_anc).reverse ++ rest)
        (s :: visited) := by
  simp only [dsepLoop, hnd]

theorem dsepLoop_cons_none {bn : BN} {qend : String}
    {observed obs_anc : List String} {fuel : Nat} {s : String × Dir}
    {rest visited : List (String × Dir)} (hnd : bn.getNode s.1 = none) :
    dsepLoop bn qend observed obs_anc (fuel + 1) (s :: rest) visited = none := by
  simp only [dsepLoop, hnd]

/-! ### Termination of the d-separation loop -/

theorem dsepLoop_total (bn : BN) (qend : String)
    (observed obs_anc : List String)
    (hcl : ∀ k nd, bn.getNode k = some nd →
      (∀ x ∈ nd.parents, x ∈ nodeKeys bn.nodes) ∧
        (∀ x ∈ nd.children, x ∈ nodeKeys bn.nodes)) :
    ∀ (fuel : Nat) (stack visited : List (String × Dir)),
      (∀ s ∈ stack, s.1 ∈ nodeKeys bn.nodes) →
      visited.Nodup → visited ⊆ allStates bn →
      stack.length +
          (2 * bn.nodes.length - visited.length) * (1 + bn.totalAdj) < fuel →
      ∃ b vf, dsepLoop bn qend observed obs_anc fuel stack visited =
          some (b, vf) ∧ vf.Nodup ∧ vf ⊆ allStates bn
  | 0, stack, visited, _, _, _, hfuel => absurd hfuel (Nat.not_lt_zero _)
  | fuel + 1, [], visited, _, hvnd, hvsub, _ =>
    ⟨true, visited, rfl, hvnd, hvsub⟩
  | fuel + 1, s :: rest, visited, hstack, hvnd, hvsub, hfuel => by
    obtain ⟨nd, hnd⟩ := Option.isSome_iff_exists.mp
      (lookupNode_isSome_iff.mpr (hstack s (List.mem_cons_self s rest)))
    rw [dsepLoop_cons hnd]
    by_cases hv : s ∈ visited
    · rw [if_pos hv]
      refine dsepLoop_total bn qend observed obs_anc hcl fuel rest visited
        (fun t ht => hstack t (List.mem_cons_of_mem s ht)) hvnd hvsub ?_
      simp only [List.length_cons] at hfuel
      omega
    · rw [if_neg hv]
      have hsAll : s ∈ allStates bn :=
        mem_allStates.mpr (hstack s (List.mem_cons_self s rest))
      have hvnd' : (s :: visited).Nodup := List.nodup_cons.mpr ⟨hv, hvnd⟩
      have hvsub' : (s :: visited) ⊆ allStates bn := by
        intro t ht
        rcases List.mem_cons.mp ht with rfl | ht
        · exact hsAll
        · exact hvsub ht
      by_cases hacc : s.1 ∉ observed ∧ s.1 = qend
      · rw [if_pos hacc]
        exact ⟨false, s :: visited, rfl, hvnd', hvsub'⟩
      · rw [if_neg hacc]
        have hvlen : visited.length + 1 ≤ 2 * bn.nodes.length := by
          have := (hvnd'.subperm hvsub').length_le
          rwa [length_allStates, List.length_cons] at this
        have hpush : (pushStates nd s.2 s.1 observed obs_anc).length ≤
            bn.totalAdj :=
          le_trans (pushStates_length_le nd s.2 s.1 observed obs_anc)
            (adj_le_totalAdj hnd)
        refine dsepLoop_total bn qend observed obs_anc hcl fuel
          ((pushStates nd s.2 s.1 observed obs_anc).reverse ++ rest)
          (s :: visited) ?_ hvnd' hvsub' ?_
        · intro t ht
          rcases List.mem_append.mp ht with ht | ht
          · rcases pushStates_names (List.mem_reverse.mp ht) with hp | hp
            · exact (hcl s.1 nd hnd).1 t.1 hp
            · exact (hcl s.1 nd hnd).2 t.1 hp
          · exact hstack t (List.mem_cons_of_mem s ht)
        · have hexp : (2 * bn.nodes.length - visited.length) *
              (1 + bn.totalAdj) =
              (2 * bn.nodes.length - (visited.length + 1)) *
                (1 + bn.totalAdj) + (1 + bn.totalAdj) := by
            rw [show 2 * bn.nodes.length - visited.length =
              (2 * bn.nodes.length - (visited.length + 1)) + 1 by omega]
            ring
          simp only [List.length_cons, List.length_append,
            List.length_reverse] at hfuel ⊢
          omega

/-! ### What the loop's answer means: reachability in the state space -/

theorem dsepLoop_sound (bn : BN) (qend : String)
    (observed obs_anc : List String) (root : String × Dir) :
    ∀ (fuel : Nat) (stack visited vf : List (String × Dir)),
      dsepLoop bn qend observed obs_anc fuel stack visited = some (false, vf) →
      (∀ s ∈ stack, Reaches bn observed obs_anc root s) →
      (∀ s ∈ visited, Reaches bn observed obs_anc root s) →
      ∃ t, Reaches bn observed obs_anc root t ∧ t.1 ∉ observed ∧ t.1 = qend
  | 0, stack, visited, vf, h, _, _ => by simp [dsepLoop] at h
  | fuel + 1, [], visited, vf, h, _, _ => by simp [dsepLoop] at h
  | fuel + 1, s :: rest, visited, vf, h, hstack, hvis => by
    cases hnd : bn.getNode s.1 with
    | none =>
      rw [dsepLoop_cons_none hnd] at h
      cases h
    | some nd =>
      rw [dsepLoop_cons hnd] at h
      by_cases hv : s ∈ visited
      · rw [if_pos hv] at h
        exact dsepLoop_sound bn qend observed obs_anc root fuel rest visited vf
          h (fun t ht => hstack t (List.mem_cons_of_mem s ht)) hvis
      · rw [if_neg hv] at h
        by_cases hacc : s.1 ∉ observed ∧ s.1 = qend
        · exact ⟨s, hstack s (List.mem_cons_self s rest), hacc.1, hacc.2⟩
        · rw [if_neg hacc] at h
          refine dsepLoop_sound bn qend observed obs_anc root fuel _ _ vf h
            ?_ ?_
          · intro t ht
            rcases List.mem_append.mp ht with ht | ht
            · exact Relation.ReflTransGen.tail
                (hstack s (List.mem_cons_self s rest))
                ⟨nd, hnd, List.mem_reverse.mp ht⟩
            · exact hstack t (List.mem_cons_of_mem s ht)
          · intro t ht
            rcases List.mem_cons.mp ht with rfl | ht
            · exact hstack t (List.mem_cons_self t rest)
            · exact hvis t ht

theorem dsepLoop_complete (bn : BN) (qend : String)
    (observed obs_anc : List String) :
    ∀ (fuel : Nat) (stack visited vf : List (String × Dir)),
      dsepLoop bn qend observed obs_anc fuel stack visited = some (true, vf) →
      stack ⊆ vf ∧ visited ⊆ vf ∧
        ∀ u ∈ vf, u ∉ visited →
          ¬(u.1 ∉ observed ∧ u.1 = qend) ∧
            ∀ t, DStep bn observed obs_anc u t → t ∈ vf
  | 0, stack, visited, vf, h => by simp [dsepLoop] at h
  | fuel + 1, [], visited, vf, h => by
    have hveq : visited = vf := by simpa [dsepLoop] using h
    subst hveq
    exact ⟨fun t ht => absurd ht (List.not_mem_nil t), fun t ht => ht,
      fun u hu hnu => absurd hu hnu⟩
  | fuel + 1, s :: rest, visited, vf, h => by
    cases hnd : bn.getNode s.1 with
    | none =>
      rw [dsepLoop_cons_none hnd] at h
      cases h
    | some nd =>
      rw [dsepLoop_cons hnd] at h
      by_cases hv : s ∈ visited
      · rw [if_pos hv] at h
        obtain ⟨hst, hvs, hu⟩ :=
          dsepLoop_complete bn qend observed obs_anc fuel rest visited vf h
        refine ⟨?_, hvs, hu⟩
        intro t ht
        rcases List.mem_cons.mp ht with rfl | ht
        · exact hvs hv
        · exact hst ht
      · rw [if_neg hv] at h
        by_cases hacc : s.1 ∉ observed ∧ s.1 = qend
        · rw [if_pos hacc] at h
          simp at h
        · rw [if_neg hacc] at h
          obtain ⟨hst, hvs, hu⟩ :=
            dsepLoop_complete bn qend observed obs_anc fuel _ _ vf h
          have hsvf : s ∈ vf := hvs (List.mem_cons_self s visited)
          refine ⟨?_, ?_, ?_⟩
          · intro t ht
            rcases List.mem_cons.mp ht with rfl | ht
            · exact hsvf
            · exact hst (List.mem_append_right _ ht)
          · exact fun t ht => hvs (List.mem_cons_of_mem s ht)
          · intro u hu' hnu
            by_cases hus : u = s
            · subst hus
              refine ⟨hacc, ?_⟩
              rintro t ⟨nd', hnd', hmem⟩
              rw [hnd] at hnd'
              injection hnd' with he
              subst he
              exact hst (List.mem_append_left _ (List.mem_reverse.mpr hmem))
            · exact hu u hu'
                fun hc => (List.mem_cons.mp hc).elim hus hnu

theorem reaches_mem_closed {bn : BN} {observed obs_anc : List String}
    {vf : List (String × Dir)} {root : String × Dir}
    (hroot : root ∈ vf)
    (hclosed : ∀ u ∈ vf, ∀ t, DStep bn observed obs_anc u t → t ∈ vf) :
    ∀ t, Reaches bn observed obs_anc root t → t ∈ vf := by
  intro t ht
  induction ht with
  | refl => exact hroot
  | tail hab hbc ih => exact hclosed _ ih _ hbc

/-- The boolean the loop returns is `false` exactly when a state whose name
is the unobserved query end is reachable from `(start, up)`. -/
theorem is_dsep_run_false_iff {bn : BN} {start qend : String}
    {observed obs_anc : List String} {b : Bool} {vf : List (String × Dir)}
    (hanc : bn.find_obs_anc observed = some obs_anc)
    (hrun : bn.is_dsep_run start qend observed = some (b, vf)) :
    b = false ↔ ∃ t, Reaches bn observed obs_anc (start, Dir.up) t ∧
      t.1 ∉ observed ∧ t.1 = qend := by
  have hloop : dsepLoop bn qend observed obs_anc bn.dsepFuel
      [(start, Dir.up)] [] = some (b, vf) := by
    simpa [BN.is_dsep_run, hanc] using hrun
  constructor
  · intro hb
    subst hb
    exact dsepLoop_sound bn qend observed obs_anc (start, Dir.up) _ _ _ _
      hloop
      (fun s hs => by
        rw [List.mem_singleton] at hs
        subst hs
        exact Relation.ReflTransGen.refl)
      (fun s hs => absurd hs (List.not_mem_nil s))
  · rintro ⟨t, hreach, hobs, hqe⟩
    cases b with
    | false => rfl
    | true =>
      exfalso
      obtain ⟨hst, hvs, hu⟩ :=
        dsepLoop_complete bn qend observed obs_anc _ _ _ _ hloop
      have hroot : (start, Dir.up) ∈ vf := hst (List.mem_singleton_self _)
      have hclosed : ∀ u ∈ vf, ∀ t', DStep bn observed obs_anc u t' →
          t' ∈ vf :=
        fun u hu' t' hstep => (hu u hu' (List.not_mem_nil u)).2 t' hstep
      have htvf : t ∈ vf := reaches_mem_closed hroot hclosed t hreach
      exact (hu t htvf (List.not_mem_nil t)).1 ⟨hobs, hqe⟩

/-! ### The transition relation, unfolded -/

theorem mem_pushStates_iff {nd : Node} {dir : Dir} {nname : String}
    {observed obs_anc : List String} {t : String × Dir} :
    t ∈ pushStates nd dir nname observed obs_anc ↔
      ((t.2 = Dir.up ∧ t.1 ∈ nd.parents ∧
          ((dir = Dir.up ∧ nname ∉ observed) ∨
            (dir = Dir.down ∧ (nname ∈ observed ∨ nname ∈ obs_anc)))) ∨
        (t.2 = Dir.down ∧ t.1 ∈ nd.children ∧ nname ∉ observed)) := by
  obtain ⟨tn, td⟩ := t
  by_cases hobs : nname ∈ observed
  · cases dir <;> cases td <;>
      simp [pushStates, hobs] <;> tauto
  · cases dir <;> cases td <;>
      simp [pushStates, hobs] <;> tauto

theorem dstep_iff {bn : BN} {observed obs_anc : List String}
    {a b : String × Dir} :
    DStep bn observed obs_anc a b ↔
      ∃ nd, bn.getNode a.1 = some nd ∧
        ((b.2 = Dir.up ∧ b.1 ∈ nd.parents ∧
            ((a.2 = Dir.up ∧ a.1 ∉ observed) ∨
              (a.2 = Dir.down ∧ (a.1 ∈ observed ∨ a.1 ∈ obs_anc)))) ∨
          (b.2 = Dir.down ∧ b.1 ∈ nd.children ∧ a.1 ∉ observed)) := by
  unfold DStep
  constructor
  · rintro ⟨nd, hnd, hmem⟩
    exact ⟨nd, hnd, mem_pushStates_iff.mp hmem⟩
  · rintro ⟨nd, hnd, hcond⟩
    exact ⟨nd, hnd, mem_pushStates_iff.mpr hcond⟩

/-- A state whose name is observed and whose direction is `up` has no
successor. -/
theorem no_dstep_of_obs_up {bn : BN} {observed obs_anc : List String}
    {s t : String × Dir} (hdir : s.2 = Dir.up) (hobs : s.1 ∈ observed) :
    ¬ DStep bn observed obs_anc s t := by
  rw [dstep_iff]
  rintro ⟨nd, -, hcond⟩
  rcases hcond with ⟨-, -, ⟨-, hno⟩ | ⟨hdown, -⟩⟩ | ⟨-, -, hno⟩
  · exact hno hobs
  · rw [hdir] at hdown
    cases hdown
  · exact hno hobs

/-- Every state reachable from a state whose name is a node key has a
name that is a node key. -/
theorem reaches_names {bn : BN} (hwf : WF bn)
    {observed obs_anc : List String} {root t : String × Dir}
    (hroot : root.1 ∈ nodeKeys bn.nodes)
    (h : Reaches bn observed obs_anc root t) : t.1 ∈ nodeKeys bn.nodes := by
  induction h with
  | refl => exact hroot
  | tail hab hbc ih =>
    obtain ⟨nd, hnd, hmem⟩ := hbc
    rcases pushStates_names hmem with hp | hp
    · exact (hwf.closed hnd).1 _ hp
    · exact (hwf.closed hnd).2 _ hp

/-- Shared totality result for `is_dsep_run` on a built graph: with a
present start node and a computed `obs_anc`, the run produces a boolean and
a visited set of at most `2·|nodes|` states. -/
theorem is_dsep_run_some {edges : List (String × String)}
    {start qend : String} {observed obs_anc : List String}
    (hanc : (buildBN edges).find_obs_anc observed = some obs_anc)
    (hstart : start ∈ nodeKeys (buildBN edges).nodes) :
    ∃ b vf, (buildBN edges).is_dsep_run start qend observed = some (b, vf) ∧
      vf.length ≤ 2 * (buildBN edges).nodes.length := by
  have hwf := WF_buildBN edges
  obtain ⟨b, vf, hloop, hvnd, hvsub⟩ :=
    dsepLoop_total (buildBN edges) qend observed obs_anc
      (fun k nd h => hwf.closed h) (buildBN edges).dsepFuel
      [(start, Dir.up)] []
      (by
        intro s hs
        rw [List.mem_singleton] at hs
        subst hs
        exact hstart)
      List.nodup_nil
      (fun t ht => absurd ht (List.not_mem_nil t))
      (by
        unfold BN.dsepFuel
        simp only [List.length_singleton, List.length_nil, Nat.sub_zero]
        omega)
  refine ⟨b, vf, ?_, ?_⟩
  · simp only [BN.is_dsep_run, hanc]
    exact hloop
  · have hle := (hvnd.subperm hvsub).length_le
    rwa [length_allStates] at hle

theorem find_obs_anc_some_names {bn : BN} {observed anc : List String}
    (hanc : bn.find_obs_anc observed = some anc) :
    ∀ o ∈ observed, o ∈ nodeKeys bn.nodes := by
  intro o ho
  by_contra hno
  rw [BN.find_obs_anc,
    obsAncLoop_none bn observed.reverse [] o (List.mem_reverse.mpr ho)
      (lookupNode_eq_none_iff.mpr hno)] at hanc
  cases hanc

/-! ### Claim theorems about the d-separation traversal -/

/-- C2: on the collider graph `A→B←C`, the query `is_dsep(A, C, ∅)`
returns `True` and `is_dsep(A, C, {B})` returns `False` — observing the
collider activates the path. -/
theorem is_dsep_collider_cases :
    (buildBN [("A", "B"), ("C", "B")]).is_dsep "A" "C" [] = some true ∧
      (buildBN [("A", "B"), ("C", "B")]).is_dsep "A" "C" ["B"] = some false :=
  ⟨by decide, by decide⟩

/-- C7: for every graph built by `add_edge` calls — directed cycles and
self-edges included — and every query whose start and observed names are
present, `is_dsep` terminates with a boolean; the final `visited` set,
which records one entry per expansion of the main loop, has at most
`2·|nodes|` entries. -/
theorem is_dsep_terminates (edges : List (String × String))
    (start qend : String) (observed : List String)
    (hstart : start ∈ nodeKeys (buildBN edges).nodes)
    (hobs : ∀ o ∈ observed, o ∈ nodeKeys (buildBN edges).nodes) :
    ∃ b vf, (buildBN edges).is_dsep_run start qend observed = some (b, vf) ∧
      vf.length ≤ 2 * (buildBN edges).nodes.length := by
  obtain ⟨anc, hanc, -⟩ := find_obs_anc_spec (buildBN edges) observed
    fun o ho => lookupNode_isSome_iff.mpr (hobs o ho)
  exact is_dsep_run_some hanc hstart

/-- C7 witness: the query runs to completion on a graph with a self-edge. -/
theorem is_dsep_terminates_witness :
    ("A" ∈ nodeKeys (buildBN [("A", "A")]).nodes) ∧
      (∀ o ∈ ([] : List String), o ∈ nodeKeys (buildBN [("A", "A")]).nodes) ∧
      ∃ b vf, (buildBN [("A", "A")]).is_dsep_run "A" "B" [] = some (b, vf) ∧
        vf.length ≤ 2 * (buildBN [("A", "A")]).nodes.length :=
  ⟨by decide, by decide,
    is_dsep_terminates [("A", "A")] "A" "B" [] (by decide) (by decide)⟩

/-- C10: for every built graph and query whose names are all present, if
the start node or the end node is itself observed then `is_dsep` returns
`True`, regardless of the edges — even when the end is a direct child of
the start, and even when start equals end. -/
theorem is_dsep_observed_endpoint (edges : List (String × String))
    (start qend : String) (observed : List String)
    (hstart : start ∈ nodeKeys (buildBN edges).nodes)
    (hqend : qend ∈ nodeKeys (buildBN edges).nodes)
    (hobs : ∀ o ∈ observed, o ∈ nodeKeys (buildBN edges).nodes)
    (hin : start ∈ observed ∨ qend ∈ observed) :
    (buildBN edges).is_dsep start qend observed = some true := by
  obtain ⟨anc, hanc, -⟩ := find_obs_anc_spec (buildBN edges) observed
    fun o ho => lookupNode_isSome_iff.mpr (hobs o ho)
  obtain ⟨b, vf, hrun, -⟩ := is_dsep_run_some hanc hstart
  have hb : b = true := by
    cases b with
    | true => rfl
    | false =>
      exfalso
      obtain ⟨t, hreach, htobs, hteq⟩ :=
        (is_dsep_run_false_iff hanc hrun).mp rfl
      rcases hin with hin | hin
      · rcases Relation.ReflTransGen.cases_head hreach with heq | ⟨c, hc, -⟩
        · rw [← heq] at htobs
          exact htobs hin
        · exact no_dstep_of_obs_up rfl hin hc
      · rw [hteq] at htobs
        exact htobs hin
  subst hb
  unfold BN.is_dsep
  rw [hrun]
  rfl

/-- C10 witness: observing the start makes the query of its direct child
return `True`. -/
theorem is_dsep_observed_endpoint_witness :
    ("A" ∈ nodeKeys (buildBN [("A", "B")]).nodes) ∧
      ("B" ∈ nodeKeys (buildBN [("A", "B")]).nodes) ∧
      (buildBN [("A", "B")]).is_dsep "A" "B" ["A"] = some true :=
  ⟨by decide, by decide,
    is_dsep_observed_endpoint [("A", "B")] "A" "B" ["A"] (by decide)
      (by decide) (by decide) (Or.inl (by decide))⟩

/-- C8 counterexample: the query `is_dsep(A, C, ∅)` on the graph with the
single edge `A→B` references the never-introduced end name `C`, yet it
returns the boolean `True` instead of failing with a not-found error. -/
theorem is_dsep_missing_end_counterexample :
    (buildBN [("A", "B")]).is_dsep "A" "C" [] = some true ∧
      "C" ∉ nodeKeys (buildBN [("A", "B")]).nodes :=
  ⟨by decide, by decide⟩

/-- C8 (amended): a d-separation query referencing an absent observed name
or an absent start name fails with the not-found error, which propagates to
the caller; a query whose end name is absent (start and observed present)
does not fail and returns `True`. -/
theorem is_dsep_notfound_amended (edges : List (String × String))
    (start qend : String) (observed : List String) :
    ((∃ z ∈ observed, z ∉ nodeKeys (buildBN edges).nodes) →
        (buildBN edges).is_dsep start qend observed = none) ∧
      ((∀ o ∈ observed, o ∈ nodeKeys (buildBN edges).nodes) →
        start ∉ nodeKeys (buildBN edges).nodes →
        (buildBN edges).is_dsep start qend observed = none) ∧
      ((∀ o ∈ observed, o ∈ nodeKeys (buildBN edges).nodes) →
        start ∈ nodeKeys (buildBN edges).nodes →
        qend ∉ nodeKeys (buildBN edges).nodes →
        (buildBN edges).is_dsep start qend observed = some true) := by
  refine ⟨?_, ?_, ?_⟩
  · rintro ⟨z, hz, hno⟩
    have hanc : (buildBN edges).find_obs_anc observed = none := by
      rw [BN.find_obs_anc]
      exact obsAncLoop_none _ observed.reverse [] z (List.mem_reverse.mpr hz)
        (lookupNode_eq_none_iff.mpr hno)
    simp [BN.is_dsep, BN.is_dsep_run, hanc]
  · intro hobs hno
    obtain ⟨anc, hanc, -⟩ := find_obs_anc_spec (buildBN edges) observed
      fun o ho => lookupNode_isSome_iff.mpr (hobs o ho)
    have hfuel : (buildBN edges).dsepFuel =
        (1 + 2 * (buildBN edges).nodes.length *
          (1 + (buildBN edges).totalAdj)) + 1 := by
      unfold BN.dsepFuel
      omega
    have hrun : (buildBN edges).is_dsep_run start qend observed = none := by
      simp only [BN.is_dsep_run, hanc, hfuel]
      exact dsepLoop_cons_none (lookupNode_eq_none_iff.mpr hno)
    simp [BN.is_dsep, hrun]
  · intro hobs hstart hqno
    obtain ⟨anc, hanc, -⟩ := find_obs_anc_spec (buildBN edges) observed
      fun o ho => lookupNode_isSome_iff.mpr (hobs o ho)
    obtain ⟨b, vf, hrun, -⟩ := is_dsep_run_some hanc hstart
    have hb : b = true := by
      cases b with
      | true => rfl
      | false =>
        obtain ⟨t, hreach, -, hteq⟩ :=
          (is_dsep_run_false_iff hanc hrun).mp rfl
        have hkeys : t.1 ∈ nodeKeys (buildBN edges).nodes :=
          reaches_names (WF_buildBN edges) hstart hreach
        rw [hteq] at hkeys
        exact absurd hkeys hqno
    subst hb
    simp [BN.is_dsep, hrun]

/-- C8 amended witness: the three cases at concrete inputs. -/
theorem is_dsep_notfound_amended_witness :
    (buildBN [("A", "B")]).is_dsep "A" "B" ["Z"] = none ∧
      (buildBN [("A", "B")]).is_dsep "Q" "B" [] = none ∧
      (buildBN [("A", "B")]).is_dsep "A" "C" [] = some true :=
  ⟨(is_dsep_notfound_amended [("A", "B")] "A" "B" ["Z"]).1
      ⟨"Z", by decide, by decide⟩,
    (is_dsep_notfound_amended [("A", "B")] "Q" "B" []).2.1
      (by decide) (by decide),
    (is_dsep_notfound_amended [("A", "B")] "A" "C" []).2.2
      (by decide) (by decide) (by decide)⟩

/-! ### Reversal of active paths -/

/-- Opposite traversal direction. -/
def Dir.flip : Dir → Dir
  | Dir.up => Dir.down
  | Dir.down => Dir.up

/-- The middle-of-trail reversal step: two consecutive transitions through
a state `q` yield the reversed transition through `q`, by the consistency
of the parent/child dictionaries. -/
theorem dstep_flip {bn : BN} (hwf : WF bn) {observed obs_anc : List String}
    {w q r : String × Dir}
    (h1 : DStep bn observed obs_anc w q)
    (h2 : DStep bn observed obs_anc q r) :
    DStep bn observed obs_anc (q.1, r.2.flip) (w.1, q.2.flip) := by
  rw [dstep_iff] at h1 h2 ⊢
  obtain ⟨ndw, hndw, hc1⟩ := h1
  obtain ⟨ndq, hndq, hc2⟩ := h2
  refine ⟨ndq, hndq, ?_⟩
  rcases hc1 with ⟨hq2, hqmem, -⟩ | ⟨hq2, hqmem, -⟩
  · obtain ⟨ndq', hndq', hwc⟩ := hwf.parentsClosed w.1 ndw hndw q.1 hqmem
    rw [hndq] at hndq'
    injection hndq' with he
    subst he
    have hqobs : q.1 ∉ observed := by
      rcases hc2 with ⟨-, -, ⟨-, hno⟩ | ⟨hdown, -⟩⟩ | ⟨-, -, hno⟩
      · exact hno
      · rw [hq2] at hdown
        cases hdown
      · exact hno
    right
    refine ⟨?_, hwc, hqobs⟩
    show q.2.flip = Dir.down
    rw [hq2]
    rfl
  · obtain ⟨ndq', hndq', hwp⟩ := hwf.childrenClosed w.1 ndw hndw q.1 hqmem
    rw [hndq] at hndq'
    injection hndq' with he
    subst he
    left
    refine ⟨?_, hwp, ?_⟩
    · show q.2.flip = Dir.up
      rw [hq2]
      rfl
    · rcases hc2 with ⟨hr2, -, hcond⟩ | ⟨hr2, -, hno⟩
      · rcases hcond with ⟨hup, -⟩ | ⟨-, hmemo⟩
        · rw [hq2] at hup
          cases hup
        · right
          refine ⟨?_, hmemo⟩
          show r.2.flip = Dir.down
          rw [hr2]
          rfl
      · left
        refine ⟨?_, hno⟩
        show r.2.flip = Dir.up
        rw [hr2]
        rfl

/-- Reversing a nonempty traversal path: from the last transition's source
one can travel back to the start's name with flipped directions. -/
theorem transGen_rev {bn : BN} (hwf : WF bn) {observed obs_anc : List String}
    {p r : String × Dir}
    (h : Relation.TransGen (DStep bn observed obs_anc) p r) :
    ∃ w e, DStep bn observed obs_anc w r ∧
      Reaches bn observed obs_anc (w.1, r.2.flip) (p.1, e) := by
  induction h with
  | single hstep => exact ⟨p, _, hstep, Relation.ReflTransGen.refl⟩
  | tail htg hqr ih =>
    obtain ⟨w, e, hwq, hpath⟩ := ih
    exact ⟨_, e, hqr, Relation.ReflTransGen.head (dstep_flip hwf hwq hqr)
      hpath⟩

/-- Reversal of reachability between two unobserved names. -/
theorem reaches_symm {bn : BN} (hwf : WF bn) {observed obs_anc : List String}
    {nameX nameY : String} (hX : nameX ∉ observed) (hY : nameY ∉ observed)
    (h : ∃ d, Reaches bn observed obs_anc (nameX, Dir.up) (nameY, d)) :
    ∃ e, Reaches bn observed obs_anc (nameY, Dir.up) (nameX, e) := by
  obtain ⟨d, hd⟩ := h
  rcases Relation.reflTransGen_iff_eq_or_transGen.mp hd with heq | htg
  · have hXY : nameY = nameX := congrArg Prod.fst heq
    subst hXY
    exact ⟨Dir.up, Relation.ReflTransGen.refl⟩
  · obtain ⟨w, e, hwY, hpath⟩ := transGen_rev hwf htg
    have hstep : DStep bn observed obs_anc (nameY, Dir.up) (w.1, d.flip) := by
      rw [dstep_iff] at hwY ⊢
      obtain ⟨ndw, hndw, hcases⟩ := hwY
      rcases hcases with ⟨hd2, hmem, -⟩ | ⟨hd2, hmem, -⟩
      · obtain ⟨ndY, hndY, hmemY⟩ := hwf.parentsClosed w.1 ndw hndw nameY hmem
        refine ⟨ndY, hndY, Or.inr ⟨?_, hmemY, hY⟩⟩
        show d.flip = Dir.down
        rw [show d = Dir.up from hd2]
        rfl
      · obtain ⟨ndY, hndY, hmemY⟩ := hwf.childrenClosed w.1 ndw hndw nameY hmem
        refine ⟨ndY, hndY, Or.inl ⟨?_, hmemY, Or.inl ⟨rfl, hY⟩⟩⟩
        show d.flip = Dir.up
        rw [show d = Dir.down from hd2]
        rfl
    exact ⟨e, Relation.ReflTransGen.head hstep hpath⟩

theorem accept_iff_reach {bn : BN} {observed obs_anc : List String}
    {src tgt : String} :
    (∃ t, Reaches bn observed obs_anc (src, Dir.up) t ∧
        t.1 ∉ observed ∧ t.1 = tgt) ↔
      tgt ∉ observed ∧
        ∃ d, Reaches bn observed obs_anc (src, Dir.up) (tgt, d) := by
  constructor
  · rintro ⟨⟨tn, td⟩, hr, hno, heq⟩
    have htn : tn = tgt := heq
    subst htn
    exact ⟨hno, td, hr⟩
  · rintro ⟨hno, d, hr⟩
    exact ⟨(tgt, d), hr, hno, rfl⟩

/-- C3: for every built graph, present query nodes and any observed list,
swapping the two query nodes never changes the result of `is_dsep`. -/
theorem is_dsep_symm (edges : List (String × String)) (nameX nameY : String)
    (observed : List String)
    (hX : nameX ∈ nodeKeys (buildBN edges).nodes)
    (hY : nameY ∈ nodeKeys (buildBN edges).nodes) :
    (buildBN edges).is_dsep nameX nameY observed =
      (buildBN edges).is_dsep nameY nameX observed := by
  have hwf := WF_buildBN edges
  cases hanc : (buildBN edges).find_obs_anc observed with
  | none => simp [BN.is_dsep, BN.is_dsep_run, hanc]
  | some anc =>
    obtain ⟨b1, v1, hrun1, -⟩ := is_dsep_run_some hanc hX
    obtain ⟨b2, v2, hrun2, -⟩ := is_dsep_run_some hanc hY
    have hiff1 := is_dsep_run_false_iff hanc hrun1
    have hiff2 := is_dsep_run_false_iff hanc hrun2
    have hbb : b1 = b2 := by
      by_cases hXo : nameX ∈ observed
      · have h1 : b1 = true := by
          cases b1 with
          | true => rfl
          | false =>
            exfalso
            obtain ⟨t, hr, hno, -⟩ := hiff1.mp rfl
            rcases Relation.ReflTransGen.cases_head hr with he | ⟨c, hc, -⟩
            · rw [← he] at hno
              exact hno hXo
            · exact no_dstep_of_obs_up rfl hXo hc
        have h2 : b2 = true := by
          cases b2 with
          | true => rfl
          | false =>
            exfalso
            obtain ⟨t, -, hno, heq⟩ := hiff2.mp rfl
            rw [heq] at hno
            exact hno hXo
        rw [h1, h2]
      · by_cases hYo : nameY ∈ observed
        · have h1 : b1 = true := by
            cases b1 with
            | true => rfl
            | false =>
              exfalso
              obtain ⟨t, -, hno, heq⟩ := hiff1.mp rfl
              rw [heq] at hno
              exact hno hYo
          have h2 : b2 = true := by
            cases b2 with
            | true => rfl
            | false =>
              exfalso
              obtain ⟨t, hr, hno, -⟩ := hiff2.mp rfl
              rcases Relation.ReflTransGen.cases_head hr with he | ⟨c, hc, -⟩
              · rw [← he] at hno
                exact hno hYo
              · exact no_dstep_of_obs_up rfl hYo hc
          rw [h1, h2]
        · have hiff1' : b1 = false ↔
              ∃ d, Reaches (buildBN edges) observed anc
                (nameX, Dir.up) (nameY, d) := by
            rw [hiff1, accept_iff_reach]
            exact and_iff_right hYo
          have hiff2' : b2 = false ↔
              ∃ d, Reaches (buildBN edges) observed anc
                (nameY, Dir.up) (nameX, d) := by
            rw [hiff2, accept_iff_reach]
            exact and_iff_right hXo
          have hiff : (b1 = false) ↔ (b2 = false) := by
            rw [hiff1', hiff2']
            exact ⟨fun h => reaches_symm hwf hXo hYo h,
              fun h => reaches_symm hwf hYo hXo h⟩
          cases b1 <;> cases b2 <;> simp_all
    unfold BN.is_dsep
    rw [hrun1, hrun2, hbb]
    rfl

/-- C3 witness: the symmetry at a concrete query. -/
theorem is_dsep_symm_witness :
    ("A" ∈ nodeKeys (buildBN [("A", "B")]).nodes) ∧
      ("B" ∈ nodeKeys (buildBN [("A", "B")]).nodes) ∧
      (buildBN [("A", "B")]).is_dsep "A" "B" [] =
        (buildBN [("A", "B")]).is_dsep "B" "A" [] :=
  ⟨by decide, by decide,
    is_dsep_symm [("A", "B")] "A" "B" [] (by decide) (by decide)⟩
